import Mathlib

/-!
Verification of the geographic aggregation engine of the rendez-vous
repository: haversine distance, centroid, Weiszfeld geometric median,
ECEF coordinate transforms and a Graham-scan convex hull.

The TypeScript `number` type is modelled by the real numbers `ℝ`; code
that throws is modelled in the `Except String` monad.
-/

namespace RendezVous

/-- Geographic coordinate in degrees, from `src/types` (`LatLng`). -/
@[ext]
structure LatLng where
  lat : ℝ
  lng : ℝ

/-- Earth radius in kilometers, `EARTH_RADIUS_KM` from `haversine.ts` and `ecef.ts`. -/
def EARTH_RADIUS_KM : ℝ := 6371

/-- Degrees to radians, `toRad` in `haversine.ts` and `ecef.ts`. -/
noncomputable def toRad (deg : ℝ) : ℝ := deg * Real.pi / 180

/-- Radians to degrees, `toDeg` in `ecef.ts`. -/
noncomputable def toDeg (rad : ℝ) : ℝ := rad * 180 / Real.pi

/-- The intermediate quantity `h` computed inside `haversineDistance`:
`halfSinLat * halfSinLat + cos(toRad a.lat) * cos(toRad b.lat) * halfSinLng * halfSinLng`. -/
noncomputable def haversineH (a b : LatLng) : ℝ :=
  let dLat := toRad (b.lat - a.lat)
  let dLng := toRad (b.lng - a.lng)
  let halfSinLat := Real.sin (dLat / 2)
  let halfSinLng := Real.sin (dLng / 2)
  halfSinLat * halfSinLat +
    Real.cos (toRad a.lat) * Real.cos (toRad b.lat) * halfSinLng * halfSinLng

/-- Great-circle distance in kilometers, `haversineDistance` in `haversine.ts`. -/
noncomputable def haversineDistance (a b : LatLng) : ℝ :=
  2 * EARTH_RADIUS_KM * Real.arcsin (Real.sqrt (haversineH a b))

/-- The spec's formula for the distance, written from the spec text
(`distance = 2·R·asin(sqrt(h))` with
`h = sin²(dLat/2) + cos(radians(a.lat))·cos(radians(b.lat))·sin²(dLng/2)`,
`dLat`/`dLng` the coordinate differences in radians, `R = 6371`),
to be compared with `haversineDistance` as read off the source. -/
noncomputable def specDistance (a b : LatLng) : ℝ :=
  2 * 6371 * Real.arcsin (Real.sqrt
    (Real.sin ((toRad (b.lat - a.lat)) / 2) ^ 2 +
      Real.cos (toRad a.lat) * Real.cos (toRad b.lat) *
        Real.sin ((toRad (b.lng - a.lng)) / 2) ^ 2))

/-- Earth-Centered, Earth-Fixed coordinate in kilometers, `ECEFCoord` in `ecef.ts`. -/
@[ext]
structure ECEFCoord where
  x : ℝ
  y : ℝ
  z : ℝ

/-- Geographic to ECEF conversion, `toECEF` in `ecef.ts`. -/
noncomputable def toECEF (point : LatLng) : ECEFCoord :=
  let latRad := toRad point.lat
  let lngRad := toRad point.lng
  let cosLat := Real.cos latRad
  { x := EARTH_RADIUS_KM * cosLat * Real.cos lngRad
    y := EARTH_RADIUS_KM * cosLat * Real.sin lngRad
    z := EARTH_RADIUS_KM * Real.sin latRad }

/-- The two-argument arctangent `Math.atan2(y, x)`, modelled as the argument
of the complex number `x + y·i` (equal to `atan2` in every quadrant, with
`arctan2 0 0 = 0` as in the JavaScript built-in on positive zeros). -/
noncomputable def arctan2 (y x : ℝ) : ℝ := Complex.arg ⟨x, y⟩

/-- ECEF to geographic conversion, `fromECEF` in `ecef.ts`. -/
noncomputable def fromECEF (coord : ECEFCoord) : LatLng :=
  { lat := toDeg (Real.arcsin (coord.z / EARTH_RADIUS_KM))
    lng := toDeg (arctan2 coord.y coord.x) }

end RendezVous

namespace RendezVous

/-- C1: the source's `haversineDistance` agrees with the spec's haversine
formula everywhere (and, being a function on all of `ℝ × ℝ` pairs, is total
with no validity check). -/
theorem haversineDistance_eq_specDistance (a b : LatLng) :
    haversineDistance a b = specDistance a b := by
  unfold haversineDistance specDistance haversineH EARTH_RADIUS_KM
  ring_nf

end RendezVous

namespace RendezVous

/-- C6: every point produced by `toECEF` lies on the sphere of radius
6371 km (exactly, over real arithmetic). -/
theorem toECEF_on_sphere (p : LatLng) :
    Real.sqrt ((toECEF p).x ^ 2 + (toECEF p).y ^ 2 + (toECEF p).z ^ 2) = 6371 := by
  have h1 := Real.sin_sq_add_cos_sq (toRad p.lng)
  have h2 := Real.sin_sq_add_cos_sq (toRad p.lat)
  have hsum : (toECEF p).x ^ 2 + (toECEF p).y ^ 2 + (toECEF p).z ^ 2 = 6371 ^ 2 := by
    simp only [toECEF, EARTH_RADIUS_KM]
    nlinarith [h1, h2]
  rw [hsum, Real.sqrt_sq (by norm_num)]

end RendezVous

namespace RendezVous

/-- Degrees-to-radians then radians-to-degrees is the identity. -/
theorem toDeg_toRad (d : ℝ) : toDeg (toRad d) = d := by
  unfold toDeg toRad
  field_simp

/-- In the exact-real idealization of the ECEF transforms, the round-trip
recovers the latitude for every valid point, and recovers the longitude
whenever the point is not one of the poles and its longitude lies in
`(-180, 180]`. Over the reals `cos(pi/2)` is exactly `0`, so at a pole the
idealized `fromECEF` returns longitude `atan2(0, 0) = 0`; the floating-point
program instead evaluates `Math.cos` at a rounded `pi/2` and keeps a tiny
nonzero cosine that preserves the longitude direction, so this pole behaviour
belongs to the idealization, not to the program. -/
theorem fromECEF_toECEF_roundtrip (p : LatLng) (h1 : -90 ≤ p.lat) (h2 : p.lat ≤ 90)
    (h3 : -180 < p.lng) (h4 : p.lng ≤ 180) :
    (fromECEF (toECEF p)).lat = p.lat ∧
      (p.lat ≠ 90 → p.lat ≠ -90 → (fromECEF (toECEF p)).lng = p.lng) := by
  have hpi := Real.pi_pos
  constructor
  · have hz : (toECEF p).z / EARTH_RADIUS_KM = Real.sin (toRad p.lat) := by
      simp only [toECEF, EARTH_RADIUS_KM]
      rw [mul_div_cancel_left₀ _ (by norm_num : (6371 : ℝ) ≠ 0)]
    have hlb : -(Real.pi / 2) ≤ toRad p.lat := by unfold toRad; nlinarith
    have hub : toRad p.lat ≤ Real.pi / 2 := by unfold toRad; nlinarith
    show toDeg (Real.arcsin ((toECEF p).z / EARTH_RADIUS_KM)) = p.lat
    rw [hz, Real.arcsin_sin hlb hub, toDeg_toRad]
  · intro hne1 hne2
    have h2' : p.lat < 90 := lt_of_le_of_ne h2 hne1
    have h1' : -90 < p.lat := lt_of_le_of_ne' h1 hne2
    have hcos : 0 < Real.cos (toRad p.lat) := by
      apply Real.cos_pos_of_mem_Ioo
      constructor
      · unfold toRad; nlinarith
      · unfold toRad; nlinarith
    have hC : (0 : ℝ) < EARTH_RADIUS_KM * Real.cos (toRad p.lat) := by
      have : (0 : ℝ) < EARTH_RADIUS_KM := by norm_num [EARTH_RADIUS_KM]
      exact mul_pos this hcos
    have hmem : toRad p.lng ∈ Set.Ioc (-Real.pi) Real.pi := by
      constructor
      · unfold toRad; nlinarith
      · unfold toRad; nlinarith
    have hxy : (⟨(toECEF p).x, (toECEF p).y⟩ : ℂ) =
        (↑(EARTH_RADIUS_KM * Real.cos (toRad p.lat)) : ℂ) *
          (Complex.cos ↑(toRad p.lng) + Complex.sin ↑(toRad p.lng) * Complex.I) := by
      apply Complex.ext <;>
        simp [toECEF, Complex.mul_re, Complex.mul_im, Complex.cos_ofReal_re,
          Complex.sin_ofReal_re]
    show toDeg (arctan2 (toECEF p).y (toECEF p).x) = p.lng
    unfold arctan2
    rw [hxy, Complex.arg_real_mul _ hC, Complex.arg_cos_add_sin_mul_I hmem, toDeg_toRad]

end RendezVous

namespace RendezVous

/-- Witness for `fromECEF_toECEF_roundtrip` at the concrete point (35, 139). -/
theorem fromECEF_toECEF_roundtrip_witness :
    (fromECEF (toECEF ⟨35, 139⟩)).lat = (⟨35, 139⟩ : LatLng).lat ∧
      ((⟨35, 139⟩ : LatLng).lat ≠ 90 → (⟨35, 139⟩ : LatLng).lat ≠ -90 →
        (fromECEF (toECEF ⟨35, 139⟩)).lng = (⟨35, 139⟩ : LatLng).lng) :=
  fromECEF_toECEF_roundtrip ⟨35, 139⟩ (by norm_num) (by norm_num) (by norm_num) (by norm_num)

/-- In the exact-real idealization, at the north pole with longitude 45 the
round-trip returns longitude 0, not within 5 decimal places of 45: over the
reals the pole collapses `x` and `y` to exactly `0`. This marks the boundary
of the idealization; in IEEE doubles `Math.cos(toRad(90))` is a tiny nonzero
number, so the program's round-trip preserves the longitude there. -/
theorem fromECEF_toECEF_pole_counterexample :
    (fromECEF (toECEF ⟨90, 45⟩)).lng = 0 ∧
      ¬ |(fromECEF (toECEF ⟨90, 45⟩)).lng - 45| < 1 / 10 ^ 5 := by
  have hlat : toRad (90 : ℝ) = Real.pi / 2 := by unfold toRad; ring
  have hx : (toECEF ⟨90, 45⟩).x = 0 := by
    simp [toECEF, hlat, Real.cos_pi_div_two]
  have hy : (toECEF ⟨90, 45⟩).y = 0 := by
    simp [toECEF, hlat, Real.cos_pi_div_two]
  have harg : arctan2 (toECEF ⟨90, 45⟩).y (toECEF ⟨90, 45⟩).x = 0 := by
    unfold arctan2
    rw [hx, hy]
    have h0 : (⟨(0 : ℝ), (0 : ℝ)⟩ : ℂ) = 0 := by
      apply Complex.ext <;> simp
    rw [h0, Complex.arg_zero]
  have hlng : (fromECEF (toECEF ⟨90, 45⟩)).lng = 0 := by
    show toDeg (arctan2 (toECEF ⟨90, 45⟩).y (toECEF ⟨90, 45⟩).x) = 0
    rw [harg]; unfold toDeg; simp
  refine ⟨hlng, ?_⟩
  rw [hlng]
  rw [abs_of_nonpos (by norm_num)]
  norm_num

end RendezVous

namespace RendezVous

/-- Half-angle rewriting of the haversine intermediate quantity: the code's
`h` equals `(1 - (sin A·sin B + cos A·cos B·cos L)) / 2` with `A`, `B` the
latitudes and `L` the longitude difference in radians. -/
theorem hav_aux (A B L : ℝ) :
    Real.sin ((B - A) / 2) * Real.sin ((B - A) / 2) +
      Real.cos A * Real.cos B * Real.sin (L / 2) * Real.sin (L / 2) =
      (1 - (Real.sin A * Real.sin B + Real.cos A * Real.cos B * Real.cos L)) / 2 := by
  have h1 := Real.sin_sq_eq_half_sub ((B - A) / 2)
  have h2 := Real.sin_sq_eq_half_sub (L / 2)
  have e1 : 2 * ((B - A) / 2) = B - A := by ring
  have e2 : 2 * (L / 2) = L := by ring
  rw [e1] at h1
  rw [e2] at h2
  have h3 := Real.cos_sub B A
  linear_combination h1 + Real.cos A * Real.cos B * h2 - h3 / 2

/-- The spherical dot product `sin A·sin B + cos A·cos B·cos L` is at
least −1, for all angles. -/
theorem dot_ge_neg_one (A B L : ℝ) :
    -1 ≤ Real.sin A * Real.sin B + Real.cos A * Real.cos B * Real.cos L := by
  have e1 : 0 ≤ 1 + Real.sin A * Real.sin B - Real.cos A * Real.cos B := by
    nlinarith [sq_nonneg (Real.sin A + Real.sin B), sq_nonneg (Real.cos A - Real.cos B),
      Real.sin_sq_add_cos_sq A, Real.sin_sq_add_cos_sq B]
  have e2 : 0 ≤ 1 + Real.sin A * Real.sin B + Real.cos A * Real.cos B := by
    nlinarith [sq_nonneg (Real.sin A + Real.sin B), sq_nonneg (Real.cos A + Real.cos B),
      Real.sin_sq_add_cos_sq A, Real.sin_sq_add_cos_sq B]
  nlinarith [mul_nonneg (by linarith [Real.neg_one_le_cos L] : (0 : ℝ) ≤ 1 + Real.cos L) e2,
    mul_nonneg (by linarith [Real.cos_le_one L] : (0 : ℝ) ≤ 1 - Real.cos L) e1]

/-- Closed form of `haversineH` in terms of the spherical dot product. -/
theorem haversineH_closed (a b : LatLng) :
    haversineH a b = (1 - (Real.sin (toRad a.lat) * Real.sin (toRad b.lat) +
      Real.cos (toRad a.lat) * Real.cos (toRad b.lat) *
        Real.cos (toRad b.lng - toRad a.lng))) / 2 := by
  have hD : toRad (b.lat - a.lat) = toRad b.lat - toRad a.lat := by unfold toRad; ring
  have hL : toRad (b.lng - a.lng) = toRad b.lng - toRad a.lng := by unfold toRad; ring
  simp only [haversineH]
  rw [hD, hL]
  exact hav_aux _ _ _

/-- The haversine intermediate quantity never exceeds 1, for any inputs. -/
theorem haversineH_le_one (a b : LatLng) : haversineH a b ≤ 1 := by
  rw [haversineH_closed]
  have := dot_ge_neg_one (toRad a.lat) (toRad b.lat) (toRad b.lng - toRad a.lng)
  linarith

/-- The haversine intermediate quantity is nonnegative when both latitudes
lie in [−90, 90]. -/
theorem haversineH_nonneg (a b : LatLng) (ha1 : -90 ≤ a.lat) (ha2 : a.lat ≤ 90)
    (hb1 : -90 ≤ b.lat) (hb2 : b.lat ≤ 90) : 0 ≤ haversineH a b := by
  have hpi := Real.pi_pos
  have hca : 0 ≤ Real.cos (toRad a.lat) :=
    Real.cos_nonneg_of_neg_pi_div_two_le_of_le (by unfold toRad; nlinarith)
      (by unfold toRad; nlinarith)
  have hcb : 0 ≤ Real.cos (toRad b.lat) :=
    Real.cos_nonneg_of_neg_pi_div_two_le_of_le (by unfold toRad; nlinarith)
      (by unfold toRad; nlinarith)
  simp only [haversineH]
  nlinarith [mul_self_nonneg (Real.sin (toRad (b.lat - a.lat) / 2)),
    mul_self_nonneg (Real.sin (toRad (b.lng - a.lng) / 2)), mul_nonneg hca hcb]

/-- C9: for latitudes in [−90, 90] the quantity `h` fed to `sqrt`/`asin`
lies in [0, 1], so the distance is a well-defined real number, nonnegative,
and at most half the circumference `π·6371` km. -/
theorem haversineDistance_bounds (a b : LatLng) (ha1 : -90 ≤ a.lat) (ha2 : a.lat ≤ 90)
    (hb1 : -90 ≤ b.lat) (hb2 : b.lat ≤ 90) :
    0 ≤ haversineH a b ∧ haversineH a b ≤ 1 ∧
      0 ≤ haversineDistance a b ∧ haversineDistance a b ≤ Real.pi * 6371 := by
  have h0 := haversineH_nonneg a b ha1 ha2 hb1 hb2
  have h1 := haversineH_le_one a b
  have harc0 : 0 ≤ Real.arcsin (Real.sqrt (haversineH a b)) :=
    Real.arcsin_nonneg.mpr (Real.sqrt_nonneg _)
  have harc1 : Real.arcsin (Real.sqrt (haversineH a b)) ≤ Real.pi / 2 :=
    Real.arcsin_le_pi_div_two _
  refine ⟨h0, h1, ?_, ?_⟩
  · unfold haversineDistance EARTH_RADIUS_KM
    nlinarith
  · unfold haversineDistance EARTH_RADIUS_KM
    nlinarith

/-- Witness for `haversineDistance_bounds` at the concrete pair
(0, 0) and (10, 20). -/
theorem haversineDistance_bounds_witness :
    0 ≤ haversineH ⟨0, 0⟩ ⟨10, 20⟩ ∧ haversineH ⟨0, 0⟩ ⟨10, 20⟩ ≤ 1 ∧
      0 ≤ haversineDistance ⟨0, 0⟩ ⟨10, 20⟩ ∧
        haversineDistance ⟨0, 0⟩ ⟨10, 20⟩ ≤ Real.pi * 6371 :=
  haversineDistance_bounds ⟨0, 0⟩ ⟨10, 20⟩ (by norm_num) (by norm_num) (by norm_num)
    (by norm_num)

/-- The distance from a point to itself is 0. -/
theorem haversineDistance_self (p : LatLng) : haversineDistance p p = 0 := by
  have h : haversineH p p = 0 := by
    simp [haversineH, toRad]
  simp [haversineDistance, h]

end RendezVous

namespace RendezVous

/-- Arithmetic-mean point computed by `centroid` after its emptiness guard:
the `reduce` accumulating the coordinate sums, then division by
`points.length`. -/
noncomputable def centroidVal (points : List LatLng) : LatLng :=
  let sum := points.foldl (fun acc p => ⟨acc.lat + p.lat, acc.lng + p.lng⟩) (⟨0, 0⟩ : LatLng)
  ⟨sum.lat / points.length, sum.lng / points.length⟩

/-- `centroid` in `weiszfeld.ts`: throws on the empty array (modelled in the
`Except String` monad), otherwise the arithmetic mean. -/
noncomputable def centroid (points : List LatLng) : Except String LatLng :=
  if points.length = 0 then .error "Cannot calculate centroid of empty array"
  else .ok (centroidVal points)

/-- `DEFAULT_MAX_ITERATIONS` from the source. -/
def DEFAULT_MAX_ITERATIONS : ℕ := 1000

/-- `DEFAULT_EPSILON = 1e-7` from the source. -/
noncomputable def DEFAULT_EPSILON : ℝ := 1 / 10 ^ 7

/-- `WeiszfeldOptions`: both fields optional; `none` falls back to the
defaults via `??` at the call site. -/
structure WeiszfeldOptions where
  maxIterations : Option ℕ
  epsilon : Option ℝ

/-- One pass of the inner `for (const point of points)` loop of
`geometricMedian`: either the first point whose distance to the estimate is
below `epsilon` (the early `return {...point}`), or the accumulated
`(weightSum, latSum, lngSum)` triple. -/
noncomputable def weiszfeldScan (estimate : LatLng) (epsilon : ℝ) :
    List LatLng → ℝ → ℝ → ℝ → LatLng ⊕ (ℝ × ℝ × ℝ)
  | [], weightSum, latSum, lngSum => .inr (weightSum, latSum, lngSum)
  | point :: rest, weightSum, latSum, lngSum =>
    let dist := haversineDistance estimate point
    if dist < epsilon then .inl point
    else
      weiszfeldScan estimate epsilon rest (weightSum + 1 / dist)
        (latSum + 1 / dist * point.lat) (lngSum + 1 / dist * point.lng)

/-- The outer `for (let i = 0; i < maxIterations; i++)` loop of
`geometricMedian`, with the remaining iteration count as fuel: a scan pass,
the early coincidence return, the convergence check, then the next
iteration. -/
noncomputable def weiszfeldLoop (points : List LatLng) (epsilon : ℝ) :
    ℕ → LatLng → LatLng
  | 0, estimate => estimate
  | fuel + 1, estimate =>
    match weiszfeldScan estimate epsilon points 0 0 0 with
    | .inl point => point
    | .inr (weightSum, latSum, lngSum) =>
      let next : LatLng := ⟨latSum / weightSum, lngSum / weightSum⟩
      if haversineDistance estimate next < epsilon then next
      else weiszfeldLoop points epsilon fuel next

/-- `geometricMedian` in `weiszfeld.ts`: throws on the empty array, returns
the centroid for 1–2 points, otherwise runs the Weiszfeld iteration seeded
at the centroid. -/
noncomputable def geometricMedian (points : List LatLng)
    (options : Option WeiszfeldOptions) : Except String LatLng :=
  if points.length = 0 then .error "Cannot calculate geometric median of empty array"
  else if points.length ≤ 2 then centroid points
  else
    let maxIterations := (options.bind WeiszfeldOptions.maxIterations).getD
      DEFAULT_MAX_ITERATIONS
    let epsilon := (options.bind WeiszfeldOptions.epsilon).getD DEFAULT_EPSILON
    .ok (weiszfeldLoop points epsilon maxIterations (centroidVal points))

end RendezVous

namespace RendezVous

/-- C2: `centroid` and `geometricMedian` fail with their invalid-argument
error exactly on the empty point list, and return a value on every
non-empty list, for every configuration. -/
theorem centroid_geometricMedian_error_iff (points : List LatLng)
    (options : Option WeiszfeldOptions) :
    ((∃ msg, centroid points = .error msg) ↔ points = []) ∧
    ((∃ msg, geometricMedian points options = .error msg) ↔ points = []) ∧
    (points ≠ [] →
      (∃ c, centroid points = .ok c) ∧ ∃ m, geometricMedian points options = .ok m) := by
  by_cases hp : points = []
  · subst hp
    refine ⟨?_, ?_, ?_⟩
    · simp [centroid]
    · simp [geometricMedian]
    · intro h
      exact absurd rfl h
  · have hlen : ¬points.length = 0 := by
      simpa [List.length_eq_zero] using hp
    have hcen : centroid points = .ok (centroidVal points) := by
      simp [centroid, hlen]
    have hgm : ∃ m, geometricMedian points options = .ok m := by
      by_cases h2 : points.length ≤ 2
      · exact ⟨centroidVal points, by simp [geometricMedian, hlen, h2, hcen]⟩
      · exact ⟨weiszfeldLoop points ((options.bind WeiszfeldOptions.epsilon).getD
            DEFAULT_EPSILON) ((options.bind WeiszfeldOptions.maxIterations).getD
            DEFAULT_MAX_ITERATIONS) (centroidVal points),
          by simp [geometricMedian, hlen, h2]⟩
    obtain ⟨m, hm⟩ := hgm
    refine ⟨?_, ?_, ?_⟩
    · simp [hcen, hp]
    · simp [hm, hp]
    · intro _
      exact ⟨⟨centroidVal points, hcen⟩, ⟨m, hm⟩⟩

/-- Witness for `centroid_geometricMedian_error_iff`: at the concrete
singleton list, both functions succeed. -/
theorem centroid_geometricMedian_error_iff_witness :
    (∃ c, centroid [(⟨1, 2⟩ : LatLng)] = .ok c) ∧
      ∃ m, geometricMedian [(⟨1, 2⟩ : LatLng)] none = .ok m :=
  (centroid_geometricMedian_error_iff [⟨1, 2⟩] none).2.2 (by simp)

end RendezVous

namespace RendezVous

/-- C3: the geometric median degenerates to the centroid exactly when the
point set has 1 or 2 points (for every configuration), and when
`maxIterations` is 0 (for every non-empty point set and every epsilon). -/
theorem geometricMedian_degenerates_to_centroid :
    (∀ (points : List LatLng) (options : Option WeiszfeldOptions),
        points.length = 1 ∨ points.length = 2 →
          geometricMedian points options = centroid points) ∧
    (∀ (points : List LatLng) (e : Option ℝ), points ≠ [] →
        geometricMedian points (some ⟨some 0, e⟩) = centroid points) := by
  constructor
  · intro points options h
    have hlen : ¬points.length = 0 := by omega
    have h2 : points.length ≤ 2 := by omega
    simp [geometricMedian, hlen, h2]
  · intro points e hne
    have hlen : ¬points.length = 0 := by
      simpa [List.length_eq_zero] using hne
    by_cases h2 : points.length ≤ 2
    · simp [geometricMedian, hlen, h2]
    · simp [geometricMedian, hlen, h2, weiszfeldLoop, centroid, Option.bind]

/-- Witness for `geometricMedian_degenerates_to_centroid`: both degenerate
cases at a concrete one-point list. -/
theorem geometricMedian_degenerates_to_centroid_witness :
    geometricMedian [(⟨1, 2⟩ : LatLng)] none = centroid [⟨1, 2⟩] ∧
      geometricMedian [(⟨1, 2⟩ : LatLng)] (some ⟨some 0, none⟩) = centroid [⟨1, 2⟩] :=
  ⟨geometricMedian_degenerates_to_centroid.1 [⟨1, 2⟩] none (by simp),
    geometricMedian_degenerates_to_centroid.2 [⟨1, 2⟩] none (by simp)⟩

end RendezVous

namespace RendezVous

/-- The first point of the list (in input order) whose distance to the
estimate is below epsilon, if any. -/
noncomputable def firstCoincident (estimate : LatLng) (epsilon : ℝ) :
    List LatLng → Option LatLng
  | [] => none
  | point :: rest =>
    if haversineDistance estimate point < epsilon then some point
    else firstCoincident estimate epsilon rest

/-- When some point of the list is within epsilon of the estimate, there is
a first such point, it belongs to the list, and its distance is below
epsilon. -/
theorem firstCoincident_of_exists (estimate : LatLng) (epsilon : ℝ)
    (points : List LatLng) (hex : ∃ p ∈ points, haversineDistance estimate p < epsilon) :
    ∃ p, firstCoincident estimate epsilon points = some p ∧ p ∈ points ∧
      haversineDistance estimate p < epsilon := by
  induction points with
  | nil => simp at hex
  | cons q rest ih =>
    by_cases hq : haversineDistance estimate q < epsilon
    · exact ⟨q, by simp [firstCoincident, hq], by simp, hq⟩
    · obtain ⟨p, hp, hd⟩ := hex
      rcases List.mem_cons.mp hp with rfl | hp'
      · exact absurd hd hq
      · obtain ⟨r, hr1, hr2, hr3⟩ := ih ⟨p, hp', hd⟩
        exact ⟨r, by simp [firstCoincident, hq, hr1], List.mem_cons_of_mem _ hr2, hr3⟩

/-- The scan pass short-circuits: whatever the accumulator values are, the
scan returns the first coincident point the moment one exists. -/
theorem weiszfeldScan_inl (estimate : LatLng) (epsilon : ℝ) (points : List LatLng)
    (p : LatLng) (h : firstCoincident estimate epsilon points = some p)
    (weightSum latSum lngSum : ℝ) :
    weiszfeldScan estimate epsilon points weightSum latSum lngSum = .inl p := by
  induction points generalizing weightSum latSum lngSum with
  | nil => simp [firstCoincident] at h
  | cons q rest ih =>
    by_cases hq : haversineDistance estimate q < epsilon
    · simp [firstCoincident, hq] at h
      subst h
      simp [weiszfeldScan, hq]
    · simp only [firstCoincident, if_neg hq] at h
      simp only [weiszfeldScan, if_neg hq]
      exact ih h _ _ _

/-- C4: the coincidence guard is a hard short-circuit. For a point set of
3 or more points, if at an iteration reached with estimate `e` some input
point is closer than epsilon to `e`, the Weiszfeld loop stops and returns
the first such point in input order as its final result. -/
theorem weiszfeld_coincidence_guard (points : List LatLng) (epsilon : ℝ)
    (fuel : ℕ) (estimate : LatLng) (_h3 : 3 ≤ points.length) (hfuel : 0 < fuel)
    (hex : ∃ p ∈ points, haversineDistance estimate p < epsilon) :
    ∃ p, firstCoincident estimate epsilon points = some p ∧ p ∈ points ∧
      haversineDistance estimate p < epsilon ∧
      weiszfeldLoop points epsilon fuel estimate = p := by
  obtain ⟨p, hfirst, hmem, hd⟩ := firstCoincident_of_exists estimate epsilon points hex
  obtain ⟨k, rfl⟩ : ∃ k, fuel = k + 1 := ⟨fuel - 1, by omega⟩
  refine ⟨p, hfirst, hmem, hd, ?_⟩
  have hscan := weiszfeldScan_inl estimate epsilon points p hfirst 0 0 0
  simp [weiszfeldLoop, hscan]

/-- Witness for `weiszfeld_coincidence_guard`: three concrete points with
the estimate sitting exactly on the first one. -/
theorem weiszfeld_coincidence_guard_witness :
    ∃ p, firstCoincident ⟨0, 0⟩ 1 [(⟨0, 0⟩ : LatLng), ⟨0, 1⟩, ⟨1, 0⟩] = some p ∧
      p ∈ [(⟨0, 0⟩ : LatLng), ⟨0, 1⟩, ⟨1, 0⟩] ∧
      haversineDistance ⟨0, 0⟩ p < 1 ∧
      weiszfeldLoop [(⟨0, 0⟩ : LatLng), ⟨0, 1⟩, ⟨1, 0⟩] 1 5 ⟨0, 0⟩ = p :=
  weiszfeld_coincidence_guard [⟨0, 0⟩, ⟨0, 1⟩, ⟨1, 0⟩] 1 5 ⟨0, 0⟩ (by simp)
    (by norm_num)
    ⟨⟨0, 0⟩, by simp, by rw [haversineDistance_self]; norm_num⟩

end RendezVous

namespace RendezVous

/-- The comparator `(a, b) => a.lng - b.lng || a.lat - b.lat` of the `sort`
call in `convexHull`, as a total preorder: lexicographic on (lng, lat).
Two points it compares equal have identical coordinates, so any sort by
this order returns the same list as JavaScript's stable comparator sort. -/
def ptLE (a b : LatLng) : Prop := a.lng < b.lng ∨ (a.lng = b.lng ∧ a.lat ≤ b.lat)

noncomputable instance : DecidableRel ptLE := fun a b => by
  unfold ptLE
  infer_instance

instance : IsTotal LatLng ptLE := by
  constructor
  intro a b
  rcases lt_trichotomy a.lng b.lng with h | h | h
  · exact Or.inl (Or.inl h)
  · rcases le_total a.lat b.lat with h' | h'
    · exact Or.inl (Or.inr ⟨h, h'⟩)
    · exact Or.inr (Or.inr ⟨h.symm, h'⟩)
  · exact Or.inr (Or.inl h)

instance : IsTrans LatLng ptLE := by
  constructor
  intro a b c hab hbc
  rcases hab with h1 | ⟨h1, h1'⟩
  · rcases hbc with h2 | ⟨h2, _⟩
    · exact Or.inl (h1.trans h2)
    · exact Or.inl (h2 ▸ h1)
  · rcases hbc with h2 | ⟨h2, h2'⟩
    · exact Or.inl (h1 ▸ h2)
    · exact Or.inr ⟨h1.trans h2, h1'.trans h2'⟩

/-- The `const sorted = [...points].sort(...)` step of `convexHull`. -/
noncomputable def sortPts (points : List LatLng) : List LatLng :=
  List.insertionSort ptLE points

/-- The orientation test `cross(o, a, b)` from `convexHull`. -/
noncomputable def cross (o a b : LatLng) : ℝ :=
  (a.lng - o.lng) * (b.lat - o.lat) - (a.lat - o.lat) * (b.lng - o.lng)

/-- One `for`-body step of a chain of `convexHull`: pop the last accepted
vertex while the turn is not strictly counter-clockwise (`cross ≤ 0`), then
push `p`. The chain is stored in reverse: its head is the last pushed
vertex. -/
noncomputable def addPoint (p : LatLng) : List LatLng → List LatLng
  | a :: b :: rest => if cross b a p ≤ 0 then addPoint p (b :: rest) else p :: a :: b :: rest
  | [a] => [p, a]
  | [] => [p]

/-- A whole chain pass of `convexHull` over a point list (result reversed:
head is the last accepted vertex). -/
noncomputable def buildChain (points : List LatLng) : List LatLng :=
  points.foldl (fun chain p => addPoint p chain) []

/-- `convexHull` from `Map.tsx` (Graham scan via Andrew's monotone chain):
fewer than 3 points are returned unchanged; otherwise the points are sorted
by (lng, lat), a lower and an upper chain are built popping on `cross ≤ 0`,
the duplicated seam endpoints are dropped and the chains concatenated. -/
noncomputable def convexHull (points : List LatLng) : List LatLng :=
  if points.length < 3 then points
  else
    let sorted := sortPts points
    let lower := (buildChain sorted).reverse
    let upper := (buildChain sorted.reverse).reverse
    lower.dropLast ++ upper.dropLast

end RendezVous

namespace RendezVous

/-- Popping then pushing only selects among `p` and the old chain. -/
theorem addPoint_subset : ∀ (chain : List LatLng) (p : LatLng),
    addPoint p chain ⊆ p :: chain := by
  intro chain
  induction chain with
  | nil => intro p; simp [addPoint]
  | cons a rest ih =>
    intro p
    cases rest with
    | nil =>
      simp [addPoint]
    | cons b rest' =>
      by_cases hc : cross b a p ≤ 0
      · rw [addPoint, if_pos hc]
        intro x hx
        have := ih p hx
        simp only [List.mem_cons] at this ⊢
        tauto
      · rw [addPoint, if_neg hc]
        exact List.Subset.refl _

/-- Every element of a chain pass comes from the accumulator or the input. -/
theorem foldl_addPoint_mem : ∀ (points chain : List LatLng) (x : LatLng),
    x ∈ points.foldl (fun ch p => addPoint p ch) chain → x ∈ chain ∨ x ∈ points := by
  intro points
  induction points with
  | nil => intro chain x hx; simp at hx; exact Or.inl hx
  | cons p rest ih =>
    intro chain x hx
    simp only [List.foldl_cons] at hx
    rcases ih (addPoint p chain) x hx with h | h
    · have := addPoint_subset chain p h
      simp only [List.mem_cons] at this
      rcases this with rfl | h'
      · exact Or.inr (by simp)
      · exact Or.inl h'
    · exact Or.inr (by simp [h])

/-- Every element of a chain is one of the input points. -/
theorem buildChain_mem (points : List LatLng) (x : LatLng)
    (hx : x ∈ buildChain points) : x ∈ points := by
  rcases foldl_addPoint_mem points [] x hx with h | h
  · simp at h
  · exact h

/-- C10: every vertex returned by `convexHull` is one of the input points;
the construction never synthesizes new coordinates. -/
theorem convexHull_mem_input (points : List LatLng) (v : LatLng)
    (hv : v ∈ convexHull points) : v ∈ points := by
  by_cases h : points.length < 3
  · simpa [convexHull, h] using hv
  · simp only [convexHull, if_neg h, List.mem_append] at hv
    have hperm := (List.perm_insertionSort ptLE points).mem_iff (a := v)
    rcases hv with hv | hv
    · have h1 : v ∈ (buildChain (sortPts points)).reverse := List.dropLast_subset _ hv
      have h2 : v ∈ buildChain (sortPts points) := List.mem_reverse.mp h1
      exact hperm.mp (buildChain_mem _ _ h2)
    · have h1 : v ∈ (buildChain (sortPts points).reverse).reverse :=
        List.dropLast_subset _ hv
      have h2 : v ∈ buildChain (sortPts points).reverse := List.mem_reverse.mp h1
      have h3 := buildChain_mem _ _ h2
      exact hperm.mp (List.mem_reverse.mp h3)

/-- Witness for `convexHull_mem_input` at a concrete one-point list. -/
theorem convexHull_mem_input_witness : (⟨5, 6⟩ : LatLng) ∈ [(⟨5, 6⟩ : LatLng)] :=
  convexHull_mem_input [⟨5, 6⟩] ⟨5, 6⟩ (by simp [convexHull])

end RendezVous

namespace RendezVous

/-- C7 (amended): `convexHull` returns the input unchanged exactly when the
input has fewer than 3 elements by count; a longer input runs through the
chain construction even when it holds fewer than 3 distinct coordinates. -/
theorem convexHull_short_input (points : List LatLng) (h : points.length < 3) :
    convexHull points = points := by
  simp [convexHull, h]

/-- Witness for `convexHull_short_input` at a concrete two-point list. -/
theorem convexHull_short_input_witness :
    convexHull [(⟨0, 0⟩ : LatLng), ⟨1, 1⟩] = [⟨0, 0⟩, ⟨1, 1⟩] :=
  convexHull_short_input [⟨0, 0⟩, ⟨1, 1⟩] (by simp)

/-- C7 counterexample: a three-element list with only two distinct
coordinates is not returned unchanged — the duplicate is dropped, so the
guard is on the element count, not on the number of distinct points. -/
theorem convexHull_dup_counterexample :
    convexHull [(⟨0, 0⟩ : LatLng), ⟨0, 0⟩, ⟨1, 1⟩] = [⟨0, 0⟩, ⟨1, 1⟩] ∧
      ([(⟨0, 0⟩ : LatLng), ⟨0, 0⟩, ⟨1, 1⟩] : List LatLng) ≠ [⟨0, 0⟩, ⟨1, 1⟩] := by
  constructor
  · have hsort : sortPts [(⟨0, 0⟩ : LatLng), ⟨0, 0⟩, ⟨1, 1⟩] = [⟨0, 0⟩, ⟨0, 0⟩, ⟨1, 1⟩] := by
      norm_num [sortPts, List.insertionSort, List.orderedInsert, ptLE]
    have hlow : buildChain [(⟨0, 0⟩ : LatLng), ⟨0, 0⟩, ⟨1, 1⟩] = [⟨1, 1⟩, ⟨0, 0⟩] := by
      norm_num [buildChain, addPoint, cross]
    have hup : buildChain [(⟨1, 1⟩ : LatLng), ⟨0, 0⟩, ⟨0, 0⟩] = [⟨0, 0⟩, ⟨1, 1⟩] := by
      norm_num [buildChain, addPoint, cross]
    rw [convexHull, if_neg (by norm_num), hsort]
    norm_num [hlow, hup]
  · intro h
    have := congrArg List.length h
    simp at this

end RendezVous

namespace RendezVous

/-- Strict lexicographic order on (lng, lat) underlying the sort comparator. -/
def ptLT (a b : LatLng) : Prop := a.lng < b.lng ∨ (a.lng = b.lng ∧ a.lat < b.lat)

/-- ptLE is antisymmetric: mutually comparable points are equal. -/
theorem ptLE_antisymm {a b : LatLng} (h1 : ptLE a b) (h2 : ptLE b a) : a = b := by
  ext
  · rcases h1 with h | ⟨h, h'⟩ <;> rcases h2 with g | ⟨g, g'⟩ <;> first
      | (exfalso; linarith)
      | linarith
  · rcases h1 with h | ⟨h, h'⟩ <;> rcases h2 with g | ⟨g, g'⟩ <;> first
      | (exfalso; linarith)
      | linarith

/-- A failed weak comparison flips to a strict one. -/
theorem ptLT_of_not_ptLE {a b : LatLng} (h : ¬ptLE b a) : ptLT a b := by
  unfold ptLE at h
  push_neg at h
  unfold ptLT
  rcases lt_trichotomy a.lng b.lng with h1 | h1 | h1
  · exact Or.inl h1
  · exact Or.inr ⟨h1, lt_of_not_le fun hle => absurd (h.2 h1.symm) (not_lt.mpr hle)⟩
  · exact absurd h1 (not_lt.mpr h.1)

/-- Strict implies weak. -/
theorem ptLT_ptLE {a b : LatLng} (h : ptLT a b) : ptLE a b := by
  rcases h with h | ⟨h, h'⟩
  · exact Or.inl h
  · exact Or.inr ⟨h, le_of_lt h'⟩

/-- Strict order is irreflexive on equal points. -/
theorem ptLT_ne {a b : LatLng} (h : ptLT a b) : a ≠ b := by
  rintro rfl
  rcases h with h | ⟨_, h⟩ <;> exact lt_irrefl _ h

/-- Weak plus distinct gives strict. -/
theorem ptLT_of_ptLE_ne {a b : LatLng} (h : ptLE a b) (hne : a ≠ b) : ptLT a b := by
  rcases h with h | ⟨h, h'⟩
  · exact Or.inl h
  · rcases lt_or_eq_of_le h' with h'' | h''
    · exact Or.inr ⟨h, h''⟩
    · exact absurd (by ext <;> simp [h, h'']) hne

/-- Weak order gives longitude comparison. -/
theorem ptLE_lng {a b : LatLng} (h : ptLE a b) : a.lng ≤ b.lng := by
  rcases h with h | ⟨h, _⟩
  · exact le_of_lt h
  · exact le_of_eq h

/-- The degenerate orientation of a repeated point vanishes. -/
theorem cross_self_right (o a : LatLng) : cross o a o = 0 := by
  unfold cross; ring

/-- The orientation of a triple with its two last points equal vanishes. -/
theorem cross_last_eq (o a : LatLng) : cross o a a = 0 := by
  unfold cross; ring

/-- The orientation of a triple with its first two points equal vanishes. -/
theorem cross_fst_eq (o b : LatLng) : cross o o b = 0 := by
  unfold cross; ring

/-- Cocycle identity for the orientation form. -/
theorem cross_cocycle (a b c q : LatLng) :
    cross a c q = cross a b q + cross b c q - cross a b c := by
  unfold cross; ring

end RendezVous

namespace RendezVous

/-- Stop-step geometry: when the new point `p` makes a strict left turn over
the surviving top edge `b → a`, every earlier point `q` weakly left of that
edge and lexicographically at most `a` is weakly left of the new edge
`a → p`. -/
theorem cross_stop_left (b a p q : LatLng)
    (hba : ptLT b a) (hap : ptLT a p) (hqa : ptLE q a)
    (hq : 0 ≤ cross b a q) (hp : 0 < cross b a p) :
    0 ≤ cross a p q := by
  have key : cross a p q * (b.lng - a.lng)
      = -(cross b a q) * (p.lng - a.lng) + cross b a p * (q.lng - a.lng) := by
    unfold cross; ring
  have hvx : 0 ≤ p.lng - a.lng := by
    have := ptLE_lng (ptLT_ptLE hap); linarith
  have hwx : q.lng - a.lng ≤ 0 := by
    have := ptLE_lng hqa; linarith
  rcases hba with h1 | ⟨h1, h1'⟩
  · nlinarith [key, mul_nonneg hq hvx, mul_nonneg hp.le (neg_nonneg.mpr hwx)]
  · exfalso
    have hform : cross b a p = (b.lat - a.lat) * (p.lng - a.lng) := by
      unfold cross; rw [h1]; ring
    nlinarith [hp, hform, mul_nonneg (sub_nonneg.mpr h1'.le) hvx]

/-- Slot geometry: when `q` sits lexicographically strictly beyond `b` but
not beyond `a`, is weakly left of the edge `b → a`, and the new point `p` is
weakly right of that edge, then `q` is weakly left of the edge `b → p`. -/
theorem cross_slot (b a p q : LatLng)
    (hbq : ptLT b q) (hqa : ptLE q a) (hbp : ptLE b p)
    (hq : 0 ≤ cross b a q) (hp : cross b a p ≤ 0) :
    0 ≤ cross b p q := by
  have key : cross b p q * (a.lng - b.lng)
      = cross b a q * (p.lng - b.lng) - cross b a p * (q.lng - b.lng) := by
    unfold cross; ring
  have hvx : 0 ≤ p.lng - b.lng := by have := ptLE_lng hbp; linarith
  have hwx : 0 ≤ q.lng - b.lng := by have := ptLE_lng (ptLT_ptLE hbq); linarith
  have hab : b.lng ≤ a.lng := by
    have := ptLE_lng (ptLT_ptLE hbq); have := ptLE_lng hqa; linarith
  rcases lt_or_eq_of_le hab with h1 | h1
  · nlinarith [key, mul_nonneg hq hvx, mul_nonneg (neg_nonneg.mpr hp) hwx]
  · have hq0 : q.lng = b.lng := by
      have := ptLE_lng hqa; linarith [h1.symm]
    have hwy : 0 < q.lat - b.lat := by
      rcases hbq with h | ⟨h, h'⟩
      · exfalso; linarith [hq0]
      · linarith
    have hgoal : cross b p q = (p.lng - b.lng) * (q.lat - b.lat) := by
      unfold cross; rw [hq0]; ring
    rw [hgoal]
    exact mul_nonneg hvx hwy.le

/-- Propagation of leftness down a convex chain: if `q` is lexicographically
beyond `a` and weakly left of the edge `b → a`, and the chain turns strictly
left at `b` (edge `c → b` into `b → a`), then `q` is weakly left of `c → b`. -/
theorem cross_prop (c b a q : LatLng)
    (hcb : c.lng ≤ b.lng) (hba : b.lng ≤ a.lng) (haq : ptLE a q)
    (hturn : 0 < cross c b a) (hq : 0 ≤ cross b a q) :
    0 ≤ cross c b q := by
  have key : cross c b q * (a.lng - b.lng)
      = cross b a q * (b.lng - c.lng) + cross c b a * (q.lng - b.lng) := by
    unfold cross; ring
  have hwx : b.lng ≤ q.lng := le_trans hba (ptLE_lng haq)
  rcases lt_or_eq_of_le hba with h1 | h1
  · nlinarith [key, mul_nonneg hq (sub_nonneg.mpr hcb),
      mul_nonneg hturn.le (sub_nonneg.mpr hwx)]
  · rcases lt_or_eq_of_le hcb with h2 | h2
    · have hvy : 0 < a.lat - b.lat := by
        have hform : cross c b a = (a.lat - b.lat) * (b.lng - c.lng) := by
          unfold cross; rw [h1]; ring
        nlinarith [hturn, hform, h2]
      have hwx0 : q.lng = b.lng := by
        by_contra hne
        have hlt : b.lng < q.lng := lt_of_le_of_ne hwx (Ne.symm hne)
        have hform : cross b a q = -(a.lat - b.lat) * (q.lng - b.lng) := by
          unfold cross; rw [h1]; ring
        nlinarith [hq, hform, hvy, hlt]
      have hwy : a.lat ≤ q.lat := by
        rcases haq with h | ⟨h, h'⟩
        · exfalso; rw [hwx0] at h; linarith [h1]
        · exact h'
      have hgoal : cross c b q = (q.lat - b.lat) * (b.lng - c.lng) := by
        unfold cross; rw [hwx0]; ring
      rw [hgoal]
      exact mul_nonneg (by linarith) (by linarith)
    · exfalso
      have hform : cross c b a = 0 := by
        unfold cross; rw [h2, h1]; ring
      linarith [hturn, hform]

end RendezVous

namespace RendezVous

/-- A vertex with a strict left turn on the lower chain cannot also carry a
strict turn of the upper chain: the two wedges squeeze its neighbours onto a
line and contradict the strict turn. -/
theorem interior_wedge (v aL bL bU : LatLng)
    (h2 : ptLT v bL) (h3 : ptLT bU v)
    (h1 : 0 < cross aL v bL)
    (h4 : 0 ≤ cross v bL bU) (h5 : 0 ≤ cross v bU bL)
    (h6 : 0 ≤ cross v bU aL) : False := by
  have hBD : cross v bL bU = 0 := by
    have hswap : cross v bU bL = -(cross v bL bU) := by unfold cross; ring
    linarith [h4, h5, hswap]
  have idx : cross v bU aL * (bL.lng - v.lng)
      = cross aL v bL * (bU.lng - v.lng) - cross v bL bU * (aL.lng - v.lng) := by
    unfold cross; ring
  have idy : cross v bU aL * (bL.lat - v.lat)
      = cross aL v bL * (bU.lat - v.lat) - cross v bL bU * (aL.lat - v.lat) := by
    unfold cross; ring
  rw [hBD] at idx idy
  rcases h2 with hb | ⟨hb, hb'⟩ <;> rcases h3 with hd | ⟨hd, hd'⟩
  · nlinarith [idx, h1, h6, hb, hd]
  · have hDA : cross v bU aL = 0 := by
      have hx : cross v bU aL * (bL.lng - v.lng) = 0 := by rw [idx, hd]; ring
      rcases mul_eq_zero.mp hx with hc | hc
      · exact hc
      · exfalso; linarith
    have hy : cross aL v bL * (bU.lat - v.lat) = 0 := by
      rw [← sub_zero (cross aL v bL * (bU.lat - v.lat)), ← zero_mul (aL.lat - v.lat),
        ← idy, hDA]
      ring
    nlinarith [hy, h1, hd']
  · nlinarith [idx, h1, h6, hb, hd]
  · nlinarith [idy, h1, h6, hb', hd']

/-- Pinched between the two hull chains at a degenerate seam turn, every
point that is weakly left of both seam edges lies on the seam line. -/
theorem collinear_of_pinched (aL M u₁ q : LatLng)
    (hu : ptLT aL M) (hw : ptLT u₁ M)
    (hzero : cross aL M u₁ = 0)
    (hq1 : 0 ≤ cross aL M q) (hq2 : 0 ≤ cross M u₁ q) :
    cross aL M q = 0 := by
  have idx : cross aL M q * (u₁.lng - M.lng)
      = cross M u₁ q * (M.lng - aL.lng) + cross aL M u₁ * (q.lng - M.lng) := by
    unfold cross; ring
  have idy : cross aL M q * (u₁.lat - M.lat)
      = cross M u₁ q * (M.lat - aL.lat) + cross aL M u₁ * (q.lat - M.lat) := by
    unfold cross; ring
  rw [hzero] at idx idy
  rcases hu with h | ⟨h, h'⟩ <;> rcases hw with g | ⟨g, g'⟩
  · have hle : cross aL M q ≤ 0 := by nlinarith [idx, hq2, h, g]
    exact le_antisymm hle hq1
  · exfalso
    have hform : cross aL M u₁ = (M.lng - aL.lng) * (u₁.lat - M.lat) := by
      unfold cross; rw [g]; ring
    nlinarith [hzero, hform, h, g']
  · exfalso
    have hform : cross aL M u₁ = -(M.lat - aL.lat) * (u₁.lng - M.lng) := by
      unfold cross; rw [h]; ring
    nlinarith [hzero, hform, h', g]
  · have hfq1 : cross aL M q = -(M.lat - aL.lat) * (q.lng - M.lng) := by
      unfold cross; rw [h]; ring
    have hfq2 : cross M u₁ q = -(u₁.lat - M.lat) * (q.lng - M.lng) := by
      unfold cross; rw [g]; ring
    have hle : q.lng ≤ M.lng := by nlinarith [hq1, hfq1, h']
    have hge : M.lng ≤ q.lng := by nlinarith [hq2, hfq2, g']
    have hzx : q.lng = M.lng := le_antisymm hle hge
    rw [hfq1, hzx]; ring

/-- Two points on the line through `a` and `M` span no area with `a`. -/
theorem line_pair (a M x y : LatLng) (hu : ptLT a M)
    (hx : cross a M x = 0) (hy : cross a M y = 0) : cross a x y = 0 := by
  have hyM : cross a y M = 0 := by
    have : cross a y M = -(cross a M y) := by unfold cross; ring
    rw [this, hy]; ring
  have idx : cross a x y * (M.lng - a.lng)
      + cross a y M * (x.lng - a.lng) + cross a M x * (y.lng - a.lng) = 0 := by
    unfold cross; ring
  have idy : cross a x y * (M.lat - a.lat)
      + cross a y M * (x.lat - a.lat) + cross a M x * (y.lat - a.lat) = 0 := by
    unfold cross; ring
  rw [hx, hyM] at idx idy
  rcases hu with h | ⟨h, h'⟩
  · have : cross a x y * (M.lng - a.lng) = 0 := by linarith
    rcases mul_eq_zero.mp this with hc | hc
    · exact hc
    · exfalso; linarith
  · have : cross a x y * (M.lat - a.lat) = 0 := by linarith
    rcases mul_eq_zero.mp this with hc | hc
    · exact hc
    · exfalso; linarith

/-- If every point of interest lies on the line through `a` and `M`, then
every triple of such points is collinear. -/
theorem cross_zero_of_on_line (a M q1 q2 q3 : LatLng) (hu : ptLT a M)
    (h1 : cross a M q1 = 0) (h2 : cross a M q2 = 0) (h3 : cross a M q3 = 0) :
    cross q1 q2 q3 = 0 := by
  have p12 := line_pair a M q1 q2 hu h1 h2
  have p13 := line_pair a M q1 q3 hu h1 h3
  have p23 := line_pair a M q2 q3 hu h2 h3
  have hdec : cross q1 q2 q3 = cross a q2 q3 - cross a q1 q3 + cross a q1 q2 := by
    unfold cross; ring
  rw [hdec, p12, p13, p23]; ring

end RendezVous

namespace RendezVous

instance : Inhabited LatLng := ⟨⟨0, 0⟩⟩

/-- The popping phase of `addPoint` in isolation: drop accepted vertices
while the turn towards `p` is not strictly counter-clockwise. -/
noncomputable def popWhile (p : LatLng) : List LatLng → List LatLng
  | a :: b :: rest => if cross b a p ≤ 0 then popWhile p (b :: rest) else a :: b :: rest
  | [a] => [a]
  | [] => []

/-- `addPoint` is the popping phase followed by the push of `p`. -/
theorem addPoint_eq_popWhile (p : LatLng) : ∀ R : List LatLng,
    addPoint p R = p :: popWhile p R := by
  intro R
  induction R with
  | nil => simp [addPoint, popWhile]
  | cons a rest ih =>
    cases rest with
    | nil => simp [addPoint, popWhile]
    | cons b rest' =>
      by_cases hpop : cross b a p ≤ 0
      · rw [addPoint, if_pos hpop, popWhile, if_pos hpop]
        exact ih
      · rw [addPoint, if_neg hpop, popWhile, if_neg hpop]

/-- Strict convexity of the reversed chain: each consecutive triple, read in
processing order, is a strict counter-clockwise turn. -/
def Convex3 : List LatLng → Prop
  | x :: y :: z :: rest => 0 < cross z y x ∧ Convex3 (y :: z :: rest)
  | _ => True

/-- Convex3 passes to the tail. -/
theorem Convex3.tail : ∀ {R : List LatLng} (_ : Convex3 R), Convex3 R.tail
  | [], _ => trivial
  | [_], _ => trivial
  | [_, _], _ => trivial
  | _ :: _ :: _ :: _, h => h.2

/-- The popped chain is a suffix of the original. -/
theorem popWhile_suffix (p : LatLng) : ∀ R : List LatLng, popWhile p R <:+ R := by
  intro R
  induction R with
  | nil => simp [popWhile]
  | cons a rest ih =>
    cases rest with
    | nil => simp [popWhile]
    | cons b rest' =>
      by_cases hpop : cross b a p ≤ 0
      · rw [popWhile, if_pos hpop]
        exact (ih).trans (List.suffix_cons a (b :: rest'))
      · rw [popWhile, if_neg hpop]

/-- Popping a nonempty chain leaves it nonempty. -/
theorem popWhile_ne_nil (p : LatLng) : ∀ R : List LatLng, R ≠ [] → popWhile p R ≠ [] := by
  intro R
  induction R with
  | nil => simp
  | cons a rest ih =>
    intro _
    cases rest with
    | nil => simp [popWhile]
    | cons b rest' =>
      by_cases hpop : cross b a p ≤ 0
      · rw [popWhile, if_pos hpop]
        exact ih (by simp)
      · rw [popWhile, if_neg hpop]
        simp

/-- The popped chain either reaches the single bottom vertex or stops with a
strict counter-clockwise turn towards `p` at its top pair. -/
theorem popWhile_stop (p : LatLng) : ∀ R : List LatLng, R ≠ [] →
    (∃ x, popWhile p R = [x]) ∨
    ∃ t₁ t₂ rest, popWhile p R = t₁ :: t₂ :: rest ∧ 0 < cross t₂ t₁ p := by
  intro R
  induction R with
  | nil => simp
  | cons a rest ih =>
    intro _
    cases rest with
    | nil => exact Or.inl ⟨a, by simp [popWhile]⟩
    | cons b rest' =>
      by_cases hpop : cross b a p ≤ 0
      · rw [popWhile, if_pos hpop]
        exact ih (by simp)
      · rw [popWhile, if_neg hpop]
        exact Or.inr ⟨a, b, rest', rfl, lt_of_not_le hpop⟩

end RendezVous

namespace RendezVous

/-- Down the popping phase, leftness of `q` with respect to the running new
edge is preserved by the cocycle identity. -/
theorem tele (p q : LatLng) : ∀ R : List LatLng, R ≠ [] →
    List.Chain' (fun x y => 0 ≤ cross y x q) R →
    0 ≤ cross R.headI p q →
    0 ≤ cross (popWhile p R).headI p q := by
  intro R
  induction R with
  | nil => simp
  | cons a rest ih =>
    intro _ hchain hhead
    cases rest with
    | nil => simpa [popWhile] using hhead
    | cons b rest' =>
      by_cases hpop : cross b a p ≤ 0
      · rw [popWhile, if_pos hpop]
        apply ih (by simp) hchain.tail
        have hba : 0 ≤ cross b a q := (List.chain'_cons.mp hchain).1
        have hco : cross b p q = cross b a q + cross a p q - cross b a p :=
          cross_cocycle b a p q
        simp only [List.headI] at hhead ⊢
        linarith
      · rw [popWhile, if_neg hpop]
        simpa using hhead

/-- The central invariant step: every already-processed point `q` is weakly
left of the new edge from the stop vertex to the incoming point `p`. -/
theorem main_left (p q : LatLng) : ∀ R : List LatLng, R ≠ [] →
    List.Chain' (fun x y => ptLE y x) R →
    List.Chain' (fun x y => 0 ≤ cross y x q) R →
    (∀ y ∈ R, ptLE y p) →
    ptLE q R.headI →
    (∀ h : R ≠ [], ptLE (R.getLast h) q) →
    0 ≤ cross (popWhile p R).headI p q := by
  intro R
  induction R with
  | nil => simp
  | cons a rest ih =>
    intro hne hdesc hleft hp hqtop hbot
    cases rest with
    | nil =>
      have hq : q = a := ptLE_antisymm (by simpa using hqtop) (by simpa using hbot hne)
      simp [popWhile, hq, cross_self_right]
    | cons b rest' =>
      by_cases hpop : cross b a p ≤ 0
      · rw [popWhile, if_pos hpop]
        by_cases hqb : ptLE q b
        · apply ih (by simp) hdesc.tail hleft.tail
            (fun y hy => hp y (List.mem_cons_of_mem a hy)) (by simpa using hqb)
          intro h
          have := hbot hne
          rwa [List.getLast_cons h] at this
        · have hbq : ptLT b q := ptLT_of_not_ptLE hqb
          have hqa : ptLE q a := by simpa using hqtop
          have hbp : ptLE b p := hp b (by simp)
          have hq0 : 0 ≤ cross b a q := (List.chain'_cons.mp hleft).1
          have hslot : 0 ≤ cross b p q := cross_slot b a p q hbq hqa hbp hq0 hpop
          exact tele p q (b :: rest') (by simp) hleft.tail (by simpa using hslot)
      · rw [popWhile, if_neg hpop]
        have hp0 : 0 < cross b a p := lt_of_not_le hpop
        have hba : ptLE b a := (List.chain'_cons.mp hdesc).1
        have hbaS : ptLT b a := by
          refine ptLT_of_ptLE_ne hba fun hEq => ?_
          rw [hEq] at hp0
          simp [cross_self, cross] at hp0
        have hap : ptLE a p := hp a (by simp)
        have hapS : ptLT a p := by
          refine ptLT_of_ptLE_ne hap fun hEq => ?_
          rw [← hEq] at hp0
          rw [cross_last_eq] at hp0
          exact lt_irrefl _ hp0
        have hq0 : 0 ≤ cross b a q := (List.chain'_cons.mp hleft).1
        have hqa : ptLE q a := by simpa using hqtop
        simpa using cross_stop_left b a p q hbaS hapS hqa hq0 hp0

end RendezVous

namespace RendezVous

/-- Head of an append with nonempty left part. -/
theorem headI_append_ne {l t : List LatLng} (h : l ≠ []) : (l ++ t).headI = l.headI := by
  cases l with
  | nil => exact absurd rfl h
  | cons a l' => rfl

/-- Last element of a snoc. -/
theorem getLastI_concat (l : List LatLng) (p : LatLng) : (l ++ [p]).getLastI = p := by
  rw [List.getLastI_eq_getLast?, List.getLast?_concat]

/-- A nonempty suffix has the same last element. -/
theorem getLastI_suffix {l R : List LatLng} (h : l <:+ R) (hne : l ≠ []) :
    l.getLastI = R.getLastI := by
  obtain ⟨t, rfl⟩ := h
  rw [List.getLastI_eq_getLast?, List.getLastI_eq_getLast?,
    List.getLast?_append_of_ne_nil _ hne]

/-- Dropping the head of a list with a nonempty tail keeps the last element. -/
theorem getLastI_cons_ne {a : LatLng} {l : List LatLng} (h : l ≠ []) :
    (a :: l).getLastI = l.getLastI := by
  rw [List.getLastI_eq_getLast?, List.getLastI_eq_getLast?]
  cases l with
  | nil => exact absurd rfl h
  | cons b l' => rw [List.getLast?_cons_cons]

/-- The proof-carrying last element agrees with the Inhabited one. -/
theorem getLast_eq_getLastI {l : List LatLng} (h : l ≠ []) : l.getLast h = l.getLastI := by
  rw [List.getLastI_eq_getLast?, List.getLast?_eq_getLast _ h]

/-- Convexity is inherited by suffixes. -/
theorem Convex3.suffix {R l : List LatLng} (hc : Convex3 R) (h : l <:+ R) : Convex3 l := by
  obtain ⟨t, rfl⟩ := h
  induction t with
  | nil => exact hc
  | cons a t' ih => exact ih hc.tail

/-- Propagating the stop condition down the surviving chain: the new point
is weakly left of every surviving edge. -/
theorem chain_left_p (p : LatLng) : ∀ T : List LatLng,
    List.Chain' (fun x y => ptLE y x) T →
    Convex3 T →
    (∀ y ∈ T, ptLE y p) →
    (∀ t₁ t₂ rest, T = t₁ :: t₂ :: rest → 0 ≤ cross t₂ t₁ p) →
    List.Chain' (fun x y => 0 ≤ cross y x p) T := by
  intro T
  induction T with
  | nil => simp
  | cons t₁ rest ih =>
    intro hdesc hconv hp hhead
    cases rest with
    | nil => simp
    | cons t₂ rest' =>
      rw [List.chain'_cons]
      refine ⟨hhead t₁ t₂ rest' rfl, ?_⟩
      apply ih hdesc.tail hconv.tail (fun y hy => hp y (List.mem_cons_of_mem _ hy))
      intro s₁ s₂ srest hEq
      injection hEq with h1 h2
      subst h1
      subst h2
      simp only [Convex3] at hconv
      have hturn : 0 < cross s₂ t₂ t₁ := hconv.1
      have hq0 : 0 ≤ cross t₂ t₁ p := hhead t₁ t₂ (s₂ :: srest) rfl
      have hcb : s₂.lng ≤ t₂.lng := ptLE_lng (List.chain'_cons.mp hdesc.tail).1
      have hba : t₂.lng ≤ t₁.lng := ptLE_lng (List.chain'_cons.mp hdesc).1
      exact cross_prop s₂ t₂ t₁ p hcb hba (hp t₁ (by simp)) hturn hq0

end RendezVous

namespace RendezVous

/-- Head option of a nonempty list is its Inhabited head. -/
theorem head?_eq_some_headI {l : List LatLng} (h : l ≠ []) : l.head? = some l.headI := by
  cases l with
  | nil => exact absurd rfl h
  | cons a l' => rfl


/-- Invariant of a single chain pass of `convexHull` over the processed
prefix `P`: the reversed chain `R` starts at the last processed point, ends
at the first, is a reversed sublist of `P`, is lexicographically descending
(strictly, except for an all-equal prefix), strictly convex, and every
processed point is weakly left of each of its edges. -/
structure GoodChain (P R : List LatLng) : Prop where
  nonempty : R ≠ []
  head_eq : R.headI = P.getLastI
  last_eq : R.getLastI = P.headI
  sub : List.Sublist R.reverse P
  desc : List.Chain' (fun x y => ptLE y x) R
  strict : List.Chain' (fun x y => ptLT y x) R ∨ ∃ x, R = [x, x] ∧ ∀ y ∈ P, y = x
  convex : Convex3 R
  leftInv : ∀ q ∈ P, List.Chain' (fun x y => 0 ≤ cross y x q) R

/-- One step of the chain pass preserves the invariant. -/
theorem goodChain_step (P R : List LatLng) (p : LatLng)
    (hg : GoodChain P R)
    (hp : ∀ y ∈ P, ptLE y p)
    (htop : ∀ q ∈ P, ptLE q P.getLastI)
    (hbotP : ∀ q ∈ P, ptLE P.headI q) :
    GoodChain (P ++ [p]) (addPoint p R) := by
  have hPne : P ≠ [] := by
    intro hP
    subst hP
    exact hg.nonempty (by simpa using List.sublist_nil.mp hg.sub)
  have hRsubP : ∀ y ∈ R, y ∈ P := fun y hy =>
    hg.sub.subset (by simpa using hy)
  have hpR : ∀ y ∈ R, ptLE y p := fun y hy => hp y (hRsubP y hy)
  rw [addPoint_eq_popWhile]
  have hTsuf := popWhile_suffix p R
  have hTne := popWhile_ne_nil p R hg.nonempty
  set T := popWhile p R with hT
  have hTmem : ∀ y ∈ T, y ∈ R := fun y hy => hTsuf.subset hy
  have hpT : ∀ y ∈ T, ptLE y p := fun y hy => hpR y (hTmem y hy)
  have hTdesc : List.Chain' (fun x y => ptLE y x) T := hg.desc.suffix hTsuf
  have hTconv : Convex3 T := hg.convex.suffix hTsuf
  have hTlast : T.getLastI = P.headI := by
    rw [getLastI_suffix hTsuf hTne, hg.last_eq]
  have hTheadmem : T.headI ∈ T := by
    cases hcase : T with
    | nil => exact absurd hcase hTne
    | cons t rest => simp
  have hstopcond : ∀ t₁ t₂ trest, T = t₁ :: t₂ :: trest → 0 < cross t₂ t₁ p := by
    intro t₁ t₂ trest hdecomp
    rcases popWhile_stop p R hg.nonempty with ⟨x, hx⟩ | ⟨s₁, s₂, srest, hx, hstop⟩ <;>
      rw [← hT] at hx
    · rw [hx] at hdecomp
      exact absurd hdecomp (by simp)
    · rw [hx] at hdecomp
      injection hdecomp with e1 e2
      injection e2 with e2 e3
      subst e1; subst e2
      exact hstop
  have hnew : ∀ q ∈ P, 0 ≤ cross T.headI p q := by
    intro q hq
    apply main_left p q R hg.nonempty hg.desc (hg.leftInv q hq) hpR
    · rw [hg.head_eq]; exact htop q hq
    · intro h
      rw [getLast_eq_getLastI h, hg.last_eq]
      exact hbotP q hq
  constructor
  · simp
  · simp only [List.headI]
    rw [getLastI_concat]
  · rw [getLastI_cons_ne hTne, hTlast, headI_append_ne hPne]
  · rw [List.reverse_cons]
    refine List.Sublist.append ?_ (List.Sublist.refl [p])
    exact ((List.reverse_prefix.mpr hTsuf).sublist).trans hg.sub
  · rw [List.chain'_cons']
    refine ⟨?_, hTdesc⟩
    intro y hy
    rw [head?_eq_some_headI hTne] at hy
    rw [← Option.some_inj.mp hy]
    exact hpT _ hTheadmem
  · -- strictness or the degenerate all-equal case
    cases hcase : T with
    | nil => exact absurd hcase hTne
    | cons t₁ rest =>
      cases rest with
      | nil =>
        by_cases hpx : p = t₁
        · refine Or.inr ⟨t₁, by rw [hpx], ?_⟩
          intro y hy
          rcases List.mem_append.mp hy with hy | hy
          · have h1 : ptLE y p := hp y hy
            have h2 : ptLE P.headI y := hbotP y hy
            rw [← hTlast, hcase] at h2
            simp only [List.getLastI] at h2
            rw [hpx] at h1
            exact ptLE_antisymm h1 h2
          · simp only [List.mem_singleton] at hy
            rw [hy, hpx]
        · left
          refine List.chain'_cons.mpr ⟨?_, List.chain'_singleton _⟩
          refine ptLT_of_ptLE_ne (hpT t₁ (by rw [hcase]; simp)) ?_
          exact fun h => hpx h.symm
      | cons t₂ trest =>
        left
        have hstrictT : List.Chain' (fun x y => ptLT y x) T := by
          rcases hg.strict with hs | ⟨x, hxx, hall⟩
          · exact hs.suffix hTsuf
          · exfalso
            have hTsub2 : T <:+ [x, x] := hxx ▸ hTsuf
            have hlen2 : T.length = 2 := by
              have hle : T.length ≤ 2 := by simpa using hTsub2.length_le
              have hge : 2 ≤ T.length := by rw [hcase]; simp [Nat.succ_le_succ]
              omega
            have hTeq : T = [x, x] := hTsub2.eq_of_length (by rw [hlen2]; rfl)
            have hcc := hstopcond x x [] hTeq
            rw [cross_fst_eq] at hcc
            exact lt_irrefl _ hcc
        have hne1 : t₁ ≠ p := by
          intro hEq
          have hcc := hstopcond t₁ t₂ trest hcase
          rw [← hEq, cross_last_eq] at hcc
          exact lt_irrefl _ hcc
        have h1 : ptLE t₁ p := hpT t₁ (by rw [hcase]; simp)
        refine List.chain'_cons.mpr ⟨ptLT_of_ptLE_ne h1 hne1, ?_⟩
        rw [← hcase]
        exact hstrictT
  · -- convexity with the new point
    cases hcase : T with
    | nil => exact absurd hcase hTne
    | cons t₁ rest =>
      cases rest with
      | nil => trivial
      | cons t₂ trest =>
        simp only [Convex3]
        exact ⟨hstopcond t₁ t₂ trest hcase, by rw [← hcase]; exact hTconv⟩
  · -- leftness for all processed points and the new one
    intro q hq
    rcases List.mem_append.mp hq with hq | hq
    · rw [List.chain'_cons']
      refine ⟨?_, (hg.leftInv q hq).suffix hTsuf⟩
      intro y hy
      rw [head?_eq_some_headI hTne] at hy
      rw [← Option.some_inj.mp hy]
      exact hnew q hq
    · simp only [List.mem_singleton] at hq
      subst hq
      rw [List.chain'_cons']
      refine ⟨?_, ?_⟩
      · intro y hy
        rw [head?_eq_some_headI hTne] at hy
        rw [← Option.some_inj.mp hy, cross_last_eq]
      · apply chain_left_p q T hTdesc hTconv hpT
        intro t₁ t₂ trest hdecomp
        exact (hstopcond t₁ t₂ trest hdecomp).le

end RendezVous

namespace RendezVous

/-- ptLE is reflexive. -/
theorem ptLE_refl (a : LatLng) : ptLE a a := Or.inr ⟨rfl, le_refl _⟩

/-- The Inhabited last element of a nonempty list is a member. -/
theorem getLastI_mem {l : List LatLng} (h : l ≠ []) : l.getLastI ∈ l := by
  rw [← getLast_eq_getLastI h]
  exact List.getLast_mem h

/-- In a sorted list every element is at most the last one. -/
theorem pairwise_le_getLastI : ∀ l : List LatLng, List.Pairwise ptLE l →
    ∀ q ∈ l, ptLE q l.getLastI := by
  intro l
  induction l with
  | nil => simp
  | cons a rest ih =>
    intro hsort q hq
    rcases List.mem_cons.mp hq with rfl | hq
    · cases hrest : rest with
      | nil => simp [List.getLastI]; exact ptLE_refl q
      | cons b rest' =>
        rw [getLastI_cons_ne (by simp [hrest])]
        apply (List.pairwise_cons.mp hsort).1
        rw [← hrest]
        exact getLastI_mem (by simp [hrest])
    · have hne : rest ≠ [] := by
        intro h
        rw [h] at hq
        simp at hq
      rw [getLastI_cons_ne hne]
      exact ih (List.pairwise_cons.mp hsort).2 q hq

/-- In a sorted list the head is at most every element. -/
theorem pairwise_headI_le : ∀ l : List LatLng, List.Pairwise ptLE l →
    ∀ q ∈ l, ptLE l.headI q := by
  intro l
  induction l with
  | nil => simp
  | cons a rest ih =>
    intro hsort q hq
    rcases List.mem_cons.mp hq with rfl | hq
    · exact ptLE_refl q
    · exact (List.pairwise_cons.mp hsort).1 q hq

/-- The invariant holds after processing the first point. -/
theorem goodChain_init (p : LatLng) : GoodChain [p] [p] := by
  constructor
  · simp
  · rfl
  · rfl
  · simp
  · exact List.chain'_singleton _
  · exact Or.inl (List.chain'_singleton _)
  · trivial
  · intro q _
    exact List.chain'_singleton _

/-- The chain pass over a sorted nonempty list satisfies the invariant. -/
theorem buildChain_good (s : List LatLng) (hne : s ≠ [])
    (hsort : List.Pairwise ptLE s) : GoodChain s (buildChain s) := by
  induction s using List.reverseRecOn with
  | nil => exact absurd rfl hne
  | append_singleton s' p ih =>
    unfold buildChain
    rw [List.foldl_append]
    cases hs' : s' with
    | nil =>
      simp only [hs', List.nil_append, List.foldl_nil, List.foldl_cons]
      have haddnil : addPoint p [] = [p] := by simp [addPoint]
      rw [haddnil]
      exact goodChain_init p
    | cons b rest =>
      rw [← hs']
      have hs'ne : s' ≠ [] := by rw [hs']; simp
      have hsort' : List.Pairwise ptLE s' :=
        (List.pairwise_append.mp hsort).1
      have hp : ∀ y ∈ s', ptLE y p := by
        intro y hy
        exact (List.pairwise_append.mp hsort).2.2 y hy p (by simp)
      exact goodChain_step s' (buildChain s') p (ih hs'ne hsort') hp
        (pairwise_le_getLastI s' hsort') (pairwise_headI_le s' hsort')

end RendezVous

namespace RendezVous

/-- Point negation: the symmetry that swaps the lower and upper chains. -/
noncomputable def negPt (p : LatLng) : LatLng := ⟨-p.lat, -p.lng⟩

/-- Negation is an involution. -/
theorem negPt_invol (p : LatLng) : negPt (negPt p) = p := by
  ext <;> simp [negPt]

/-- The orientation form is invariant under pointwise negation. -/
theorem cross_negPt (o a b : LatLng) :
    cross (negPt o) (negPt a) (negPt b) = cross o a b := by
  unfold cross negPt; ring

/-- Negation reverses the lexicographic order. -/
theorem ptLE_negPt (a b : LatLng) : ptLE (negPt a) (negPt b) ↔ ptLE b a := by
  unfold ptLE negPt
  constructor <;> rintro (h | ⟨h, h'⟩)
  · exact Or.inl (by simp at h; linarith)
  · exact Or.inr ⟨by simp at h; linarith, by simp at h'; linarith⟩
  · exact Or.inl (by simp; linarith)
  · exact Or.inr ⟨by simp; linarith, by simp; linarith⟩

/-- Negation reverses the strict lexicographic order. -/
theorem ptLT_negPt (a b : LatLng) : ptLT (negPt a) (negPt b) ↔ ptLT b a := by
  unfold ptLT negPt
  constructor <;> rintro (h | ⟨h, h'⟩)
  · exact Or.inl (by simp at h; linarith)
  · exact Or.inr ⟨by simp at h; linarith, by simp at h'; linarith⟩
  · exact Or.inl (by simp; linarith)
  · exact Or.inr ⟨by simp; linarith, by simp; linarith⟩

/-- `addPoint` commutes with pointwise negation. -/
theorem addPoint_negPt (p : LatLng) : ∀ R : List LatLng,
    addPoint (negPt p) (R.map negPt) = (addPoint p R).map negPt := by
  intro R
  induction R with
  | nil => simp [addPoint]
  | cons a rest ih =>
    cases rest with
    | nil => simp [addPoint]
    | cons b rest' =>
      simp only [List.map_cons]
      by_cases h : cross b a p ≤ 0
      · rw [addPoint, if_pos (by rw [cross_negPt]; exact h), addPoint, if_pos h]
        simpa using ih
      · rw [addPoint, if_neg (by rw [cross_negPt]; exact h), addPoint, if_neg h]
        simp

/-- `buildChain` commutes with pointwise negation. -/
theorem buildChain_negPt (l : List LatLng) :
    buildChain (l.map negPt) = (buildChain l).map negPt := by
  unfold buildChain
  suffices h : ∀ init : List LatLng,
      List.foldl (fun chain p => addPoint p chain) (init.map negPt) (l.map negPt)
        = (List.foldl (fun chain p => addPoint p chain) init l).map negPt by
    simpa using h []
  induction l with
  | nil => simp
  | cons a rest ih =>
    intro init
    simp only [List.map_cons, List.foldl_cons]
    rw [addPoint_negPt a init]
    exact ih (addPoint a init)

/-- Head of a mapped list. -/
theorem headI_map_negPt (l : List LatLng) (h : l ≠ []) :
    (l.map negPt).headI = negPt l.headI := by
  cases l with
  | nil => exact absurd rfl h
  | cons a l' => rfl

/-- Last element of a mapped list. -/
theorem getLastI_map_negPt (l : List LatLng) (h : l ≠ []) :
    (l.map negPt).getLastI = negPt l.getLastI := by
  rw [List.getLastI_eq_getLast?, List.getLastI_eq_getLast?, List.getLast?_map]
  cases hcase : l.getLast? with
  | none => rw [List.getLast?_eq_none_iff] at hcase; exact absurd hcase h
  | some x => rfl

/-- Head of a reversed list. -/
theorem headI_reverse (l : List LatLng) : l.reverse.headI = l.getLastI := by
  cases hcase : l.reverse with
  | nil =>
    have : l = [] := by simpa using congrArg List.reverse hcase
    rw [this]; rfl
  | cons a rest =>
    have hne : l ≠ [] := by
      intro h; rw [h] at hcase; simp at hcase
    rw [List.getLastI_eq_getLast?, ← List.head?_reverse, hcase]
    rfl

/-- Last element of a reversed list. -/
theorem getLastI_reverse (l : List LatLng) : l.reverse.getLastI = l.headI := by
  have h := headI_reverse l.reverse
  rw [List.reverse_reverse] at h
  exact h.symm

end RendezVous

namespace RendezVous

/-- Strict convexity of a forward chain: every consecutive triple is a
strict counter-clockwise turn. -/
def ConvexF : List LatLng → Prop
  | x :: y :: z :: rest => 0 < cross x y z ∧ ConvexF (y :: z :: rest)
  | _ => True

/-- ConvexF passes to the tail. -/
theorem ConvexF.behead : ∀ {l : List LatLng} (_ : ConvexF l), ConvexF l.tail
  | [], _ => trivial
  | [_], _ => trivial
  | [_, _], _ => trivial
  | _ :: _ :: _ :: _, h => h.2

/-- Gluing two forward-convex chains that overlap in two vertices. -/
theorem convexF_glue : ∀ (A : List LatLng) (a b : LatLng) (C : List LatLng),
    ConvexF (A ++ [a, b]) → ConvexF (a :: b :: C) → ConvexF (A ++ a :: b :: C)
  | [], _, _, _, _, h2 => h2
  | [_], _, _, _, h1, h2 => ⟨h1.1, h2⟩
  | [_, y], a, b, C, h1, h2 => ⟨h1.1, convexF_glue [y] a b C h1.2 h2⟩
  | _ :: y :: z :: A₃, a, b, C, h1, h2 =>
    ⟨h1.1, convexF_glue (y :: z :: A₃) a b C h1.2 h2⟩

end RendezVous

namespace RendezVous

/-- A reversed convex chain is forward convex. -/
theorem convex3_reverse : ∀ {R : List LatLng}, Convex3 R → ConvexF R.reverse := by
  intro R
  induction R with
  | nil => intro _; trivial
  | cons x R' ih =>
    intro h
    cases hR : R' with
    | nil => trivial
    | cons y R'' =>
      cases hR2 : R'' with
      | nil => trivial
      | cons z rest =>
        subst hR; subst hR2
        have hh : 0 < cross z y x := h.1
        have H : ConvexF (rest.reverse ++ [z, y]) := by
          have h2 := ih h.2
          rw [List.reverse_cons, List.reverse_cons, List.append_assoc] at h2
          simpa using h2
        have hmid : ConvexF (z :: y :: [x]) := ⟨hh, trivial⟩
        have hres := convexF_glue rest.reverse z y [x] H hmid
        show ConvexF (x :: y :: z :: rest).reverse
        rw [List.reverse_cons, List.reverse_cons, List.reverse_cons,
          List.append_assoc, List.append_assoc]
        simpa using hres
end RendezVous

namespace RendezVous

/-- ConvexF restricts to a left part of an append. -/
theorem convexF_of_append_right : ∀ (l t : List LatLng), ConvexF (l ++ t) → ConvexF l
  | [], _, _ => trivial
  | [_], _, _ => trivial
  | [_, _], _, _ => trivial
  | _ :: y :: z :: rest, t, h =>
    ⟨h.1, convexF_of_append_right (y :: z :: rest) t h.2⟩

/-- ConvexF restricts to a right part of an append. -/
theorem convexF_of_append_left : ∀ (t l : List LatLng), ConvexF (t ++ l) → ConvexF l := by
  intro t
  induction t with
  | nil => intro l h; exact h
  | cons a t' ih =>
    intro l h
    exact ih l (by simpa using h.behead)

/-- Extraction of a consecutive triple from a forward-convex chain. -/
theorem convexF_triple_of_infix {l : List LatLng} {a b c : LatLng}
    (h : ConvexF l) (hinf : [a, b, c] <:+: l) : 0 < cross a b c := by
  obtain ⟨A, B, hEq⟩ := hinf
  rw [← hEq, List.append_assoc] at h
  exact (convexF_of_append_right _ B (convexF_of_append_left A _ h)).1

/-- Extraction of a consecutive pair from a chain predicate. -/
theorem chain'_rel_of_between {r : LatLng → LatLng → Prop} {l : List LatLng} {a b : LatLng}
    (h : List.Chain' r l) (hinf : [a, b] <:+: l) : r a b :=
  have h2 := List.Chain'.infix h hinf
  (List.chain'_cons.mp h2).1

/-- Convexity of the reversed chain transfers back through negation. -/
theorem convex3_of_map_negPt : ∀ {l : List LatLng}, Convex3 (l.map negPt) → Convex3 l
  | [], _ => trivial
  | [_], _ => trivial
  | [_, _], _ => trivial
  | x :: y :: z :: rest, h =>
    ⟨by have h1 := h.1; rwa [cross_negPt] at h1,
      convex3_of_map_negPt (l := y :: z :: rest) h.2⟩

/-- A list whose ends differ has at least two elements. -/
theorem two_le_length_of_ends_ne {l : List LatLng} (hne : l ≠ [])
    (h : l.headI ≠ l.getLastI) : 2 ≤ l.length := by
  cases l with
  | nil => exact absurd rfl hne
  | cons a rest =>
    cases rest with
    | nil => exact ((h rfl).elim)
    | cons b rest' => simp only [List.length_cons]; omega

/-- A two-element list is its pair of ends. -/
theorem eq_pair_of_length_two {l : List LatLng} (h : l.length = 2) :
    l = [l.headI, l.getLastI] := by
  cases l with
  | nil => simp at h
  | cons a rest =>
    cases rest with
    | nil => simp at h
    | cons b rest' =>
      cases rest' with
      | nil => rfl
      | cons c rest'' => simp at h

/-- Splitting off the Inhabited last element. -/
theorem dropLast_append_getLastI {l : List LatLng} (h : l ≠ []) :
    l.dropLast ++ [l.getLastI] = l := by
  rw [← getLast_eq_getLastI h]
  exact List.dropLast_append_getLast h

/-- Rebuilding a nonempty list from its Inhabited head. -/
theorem headI_cons_tail {l : List LatLng} (h : l ≠ []) : l.headI :: l.tail = l := by
  cases l with
  | nil => exact absurd rfl h
  | cons a rest => rfl

/-- The head survives `dropLast` on lists with two or more elements. -/
theorem headI_dropLast {l : List LatLng} (h : 2 ≤ l.length) :
    l.dropLast.headI = l.headI := by
  cases l with
  | nil => simp at h
  | cons a rest =>
    cases rest with
    | nil => simp at h
    | cons b rest' => rfl

/-- The first element as a take. -/
theorem take_one_eq {l : List LatLng} (h : l ≠ []) : l.take 1 = [l.headI] := by
  cases l with
  | nil => exact absurd rfl h
  | cons a rest => rfl

/-- The first two elements as a take. -/
theorem take_two_eq {l : List LatLng} (h : 2 ≤ l.length) :
    l.take 2 = [l.headI, l.tail.headI] := by
  cases l with
  | nil => simp at h
  | cons a rest =>
    cases rest with
    | nil => simp at h
    | cons b rest' => rfl

/-- The second element survives `dropLast` on lists of three or more. -/
theorem tail_headI_dropLast {l : List LatLng} (h : 3 ≤ l.length) :
    l.dropLast.tail.headI = l.tail.headI := by
  cases l with
  | nil => simp at h
  | cons a rest =>
    cases rest with
    | nil => simp at h
    | cons b rest' =>
      cases rest' with
      | nil => simp at h
      | cons c rest'' => rfl

/-- An element of `dropLast` other than the head has two chain neighbours. -/
theorem interior_decomp : ∀ (l : List LatLng) (v : LatLng),
    v ∈ l.dropLast → v ≠ l.headI → ∃ A B a b, l = A ++ [a, v, b] ++ B := by
  intro l
  induction l with
  | nil => simp
  | cons x rest ih =>
    intro v hv hvh
    cases hrest : rest with
    | nil => rw [hrest] at hv; simp at hv
    | cons y rest' =>
      subst hrest
      rw [List.dropLast_cons₂] at hv
      rcases List.mem_cons.mp hv with rfl | hv'
      · exact absurd rfl hvh
      · by_cases hvy : v = y
        · subst hvy
          cases hrest' : rest' with
          | nil => rw [hrest'] at hv'; simp at hv'
          | cons z rest'' =>
            exact ⟨[], rest'', x, z, rfl⟩
        · obtain ⟨A, B, a, b, hEq⟩ := ih v hv' hvy
          exact ⟨x :: A, B, a, b, by simp [hEq]⟩
end RendezVous

namespace RendezVous

/-- Strict lexicographic order is transitive. -/
theorem ptLT_trans {a b c : LatLng} (h1 : ptLT a b) (h2 : ptLT b c) : ptLT a c := by
  rcases h1 with h | ⟨h, h'⟩ <;> rcases h2 with g | ⟨g, g'⟩
  · exact Or.inl (h.trans g)
  · exact Or.inl (g ▸ h)
  · exact Or.inl (h ▸ g)
  · exact Or.inr ⟨h.trans g, h'.trans g'⟩

instance : IsTrans LatLng ptLT := ⟨fun _ _ _ => ptLT_trans⟩

instance : IsTrans LatLng fun x y => ptLT y x := ⟨fun _ _ _ h1 h2 => ptLT_trans h2 h1⟩

/-- A strictly ascending chain has no duplicates. -/
theorem nodup_of_chain_ptLT {l : List LatLng}
    (h : List.Chain' (fun x y => ptLT x y) l) : l.Nodup := by
  have hp : List.Pairwise ptLT l := List.chain'_iff_pairwise.mp h
  exact hp.imp ptLT_ne

/-- A strictly descending chain has no duplicates. -/
theorem nodup_of_chain_ptGT {l : List LatLng}
    (h : List.Chain' (fun x y => ptLT y x) l) : l.Nodup := by
  have hp : List.Pairwise (fun x y => ptLT y x) l :=
    List.chain'_iff_pairwise.mp h
  exact hp.imp fun hxy => (ptLT_ne hxy).symm

/-- The lower forward chain of a sorted, not-all-equal point list: runs from
the lexicographic minimum to the maximum, selects among the input, is
strictly ascending, forward convex, and every input point is weakly left of
each of its edges. -/
theorem lower_facts (s : List LatLng) (hne : s ≠ [])
    (hsort : List.Pairwise ptLE s) (hstrictOK : ¬∃ x, ∀ y ∈ s, y = x) :
    (buildChain s).reverse ≠ [] ∧
    (buildChain s).reverse.headI = s.headI ∧
    (buildChain s).reverse.getLastI = s.getLastI ∧
    List.Sublist (buildChain s).reverse s ∧
    List.Chain' (fun x y => ptLT x y) (buildChain s).reverse ∧
    ConvexF (buildChain s).reverse ∧
    (∀ q ∈ s, List.Chain' (fun x y => 0 ≤ cross x y q) (buildChain s).reverse) := by
  have G := buildChain_good s hne hsort
  refine ⟨by simpa using G.nonempty, ?_, ?_, G.sub, ?_, convex3_reverse G.convex, ?_⟩
  · rw [headI_reverse, G.last_eq]
  · rw [getLastI_reverse, G.head_eq]
  · rcases G.strict with hs | ⟨x, _, hall⟩
    · exact List.chain'_reverse.mpr hs
    · exact absurd ⟨x, hall⟩ hstrictOK
  · intro q hq
    exact List.chain'_reverse.mpr (G.leftInv q hq)

/-- The upper forward chain, via the negation symmetry: runs from the
maximum to the minimum, selects among the input, is strictly descending,
forward convex, and every input point is weakly left of each of its edges. -/
theorem upper_facts (s : List LatLng) (hne : s ≠ [])
    (hsort : List.Pairwise ptLE s) (hstrictOK : ¬∃ x, ∀ y ∈ s, y = x) :
    (buildChain s.reverse).reverse ≠ [] ∧
    (buildChain s.reverse).reverse.headI = s.getLastI ∧
    (buildChain s.reverse).reverse.getLastI = s.headI ∧
    (∀ v ∈ (buildChain s.reverse).reverse, v ∈ s) ∧
    List.Chain' (fun x y => ptLT y x) (buildChain s.reverse).reverse ∧
    ConvexF (buildChain s.reverse).reverse ∧
    (∀ q ∈ s, List.Chain' (fun x y => 0 ≤ cross x y q) (buildChain s.reverse).reverse) := by
  have hne' : (s.reverse.map negPt) ≠ [] := by
    simpa using hne
  have hsort' : List.Pairwise ptLE (s.reverse.map negPt) := by
    rw [List.pairwise_map]
    rw [List.pairwise_reverse]
    exact hsort.imp fun h => (ptLE_negPt _ _).mpr h
  have hstrictOK' : ¬∃ x, ∀ y ∈ s.reverse.map negPt, y = x := by
    rintro ⟨x, hall⟩
    apply hstrictOK
    refine ⟨negPt x, fun y hy => ?_⟩
    have : negPt y ∈ s.reverse.map negPt := by
      apply List.mem_map_of_mem
      simpa using hy
    have := hall (negPt y) this
    have := congrArg negPt this
    rwa [negPt_invol] at this
  have G := buildChain_good (s.reverse.map negPt) hne' hsort'
  have hbc : buildChain (s.reverse.map negPt) = (buildChain s.reverse).map negPt :=
    buildChain_negPt s.reverse
  rw [hbc] at G
  set V := buildChain s.reverse with hV
  have hVne : V ≠ [] := by
    intro h
    apply G.nonempty
    rw [h]
    rfl
  have hVhead : V.headI = s.headI := by
    have h1 := G.head_eq
    rw [headI_map_negPt V hVne, getLastI_map_negPt s.reverse (by simpa using hne),
      getLastI_reverse] at h1
    have := congrArg negPt h1
    rwa [negPt_invol, negPt_invol] at this
  have hVlast : V.getLastI = s.getLastI := by
    have h1 := G.last_eq
    rw [getLastI_map_negPt V hVne, headI_map_negPt s.reverse (by simpa using hne),
      headI_reverse] at h1
    have := congrArg negPt h1
    rwa [negPt_invol, negPt_invol] at this
  have hmem : ∀ v ∈ V.reverse, v ∈ s := by
    intro v hv
    have hv' : v ∈ V := List.mem_reverse.mp hv
    have h1 : negPt v ∈ (V.map negPt).reverse := by
      rw [List.mem_reverse]
      exact List.mem_map_of_mem negPt hv'
    have h2 : negPt v ∈ s.reverse.map negPt := G.sub.subset h1
    rw [List.mem_map] at h2
    obtain ⟨u, hu, hEq⟩ := h2
    have := congrArg negPt hEq
    rw [negPt_invol, negPt_invol] at this
    rw [this] at hu
    exact List.mem_reverse.mp hu
  refine ⟨by simpa using hVne, ?_, ?_, hmem, ?_, ?_, ?_⟩
  · rw [headI_reverse, hVlast]
  · rw [getLastI_reverse, hVhead]
  · rcases G.strict with hs | ⟨x, _, hall⟩
    · have h1 : List.Chain' (fun a b => ptLT (negPt b) (negPt a)) V :=
        (List.chain'_map negPt).mp hs
      have h2 : List.Chain' (fun a b => ptLT a b) V :=
        h1.imp fun a b h => (ptLT_negPt b a).mp h
      exact List.chain'_reverse.mpr h2
    · exact (hstrictOK' ⟨x, hall⟩).elim
  · exact convex3_reverse (convex3_of_map_negPt G.convex)
  · intro q hq
    have hq' : negPt q ∈ s.reverse.map negPt := by
      apply List.mem_map_of_mem
      simpa using hq
    have h1 := G.leftInv (negPt q) hq'
    have h2 : List.Chain' (fun a b => 0 ≤ cross b a q) V := by
      refine ((List.chain'_map negPt).mp h1).imp fun a b h => ?_
      rwa [cross_negPt] at h
    exact List.chain'_reverse.mpr h2

end RendezVous

namespace RendezVous

/-- Option form of the Inhabited last element. -/
theorem getLast?_eq_some_getLastI {l : List LatLng} (h : l ≠ []) :
    l.getLast? = some l.getLastI := by
  rw [List.getLast?_eq_getLast _ h, getLast_eq_getLastI h]

/-- Tail of an append with nonempty left part. -/
theorem tail_append_ne {A B : List LatLng} (h : A ≠ []) :
    (A ++ B).tail = A.tail ++ B := by
  cases A with
  | nil => exact absurd rfl h
  | cons a A' => rfl

/-- Swapping the first two arguments of the orientation form flips its sign. -/
theorem cross_sw01 (a b q : LatLng) : cross a b q = -(cross b a q) := by
  unfold cross; ring

/-- A nonempty `dropLast` of a two-or-longer list. -/
theorem dropLast_ne_nil {l : List LatLng} (h : 2 ≤ l.length) : l.dropLast ≠ [] := by
  intro hc
  have := congrArg List.length hc
  rw [List.length_dropLast] at this
  simp at this
  omega

end RendezVous

namespace RendezVous

/-- The forward lower chain of `convexHull`. -/
noncomputable def lowerChain (s : List LatLng) : List LatLng := (buildChain s).reverse

/-- The forward upper chain of `convexHull`. -/
noncomputable def upperChain (s : List LatLng) : List LatLng :=
  (buildChain s.reverse).reverse

/-- The hull polygon assembled from the two chains, as in `convexHull`. -/
noncomputable def hullOf (s : List LatLng) : List LatLng :=
  (lowerChain s).dropLast ++ (upperChain s).dropLast

/-- `convexHull` on a list of three or more points is the assembled hull of
the sorted list. -/
theorem convexHull_eq_hullOf (points : List LatLng) (h3 : 3 ≤ points.length) :
    convexHull points = hullOf (sortPts points) := by
  rw [convexHull, if_neg (by omega)]
  rfl

/-- Basic consequences of non-collinearity for a sorted list. -/
theorem hull_ctx (s : List LatLng) (h3 : 3 ≤ s.length)
    (hsort : List.Pairwise ptLE s)
    (hnc : ∃ a ∈ s, ∃ b ∈ s, ∃ c ∈ s, cross a b c ≠ 0) :
    s ≠ [] ∧ (¬∃ x, ∀ y ∈ s, y = x) ∧ ptLT s.headI s.getLastI := by
  have hne : s ≠ [] := by
    intro h; rw [h] at h3; simp at h3
  have hstrictOK : ¬∃ x, ∀ y ∈ s, y = x := by
    rintro ⟨x, hall⟩
    obtain ⟨a, ha, b, hb, c, hc, hval⟩ := hnc
    rw [hall a ha, hall b hb, hall c hc] at hval
    exact hval (cross_fst_eq x x)
  refine ⟨hne, hstrictOK, ?_⟩
  have hle : ptLE s.headI s.getLastI :=
    pairwise_headI_le s hsort _ (getLastI_mem hne)
  refine ptLT_of_ptLE_ne hle fun hEq => ?_
  apply hstrictOK
  refine ⟨s.headI, fun y hy => ?_⟩
  have h1 : ptLE s.headI y := pairwise_headI_le s hsort y hy
  have h2 : ptLE y s.getLastI := pairwise_le_getLastI s hsort y hy
  rw [← hEq] at h2
  exact (ptLE_antisymm h2 h1)

/-- Every hull vertex comes from the input list. -/
theorem hullOf_mem (s : List LatLng) : ∀ v ∈ hullOf s, v ∈ s := by
  intro v hv
  rcases List.mem_append.mp hv with hv | hv
  · have h1 : v ∈ lowerChain s := List.dropLast_subset _ hv
    have h2 : v ∈ buildChain s := List.mem_reverse.mp h1
    exact buildChain_mem s v h2
  · have h1 : v ∈ upperChain s := List.dropLast_subset _ hv
    have h2 : v ∈ buildChain s.reverse := List.mem_reverse.mp h1
    exact List.mem_reverse.mp (buildChain_mem s.reverse v h2)

end RendezVous

namespace RendezVous

/-- The assembled hull of a sorted, not-all-collinear list has at least
three vertices. -/
theorem hull_min3 (s : List LatLng) (h3 : 3 ≤ s.length)
    (hsort : List.Pairwise ptLE s)
    (hnc : ∃ a ∈ s, ∃ b ∈ s, ∃ c ∈ s, cross a b c ≠ 0) :
    3 ≤ (hullOf s).length := by
  obtain ⟨hne, hOK, hmM⟩ := hull_ctx s h3 hsort hnc
  obtain ⟨hLne, hLhead, hLlast, hLsub, hLstrict, hLconv, hLleft⟩ :=
    lower_facts s hne hsort hOK
  obtain ⟨hUne, hUhead, hUlast, hUmem, hUstrict, hUconv, hUleft⟩ :=
    upper_facts s hne hsort hOK
  have hLf2 : 2 ≤ (buildChain s).reverse.length :=
    two_le_length_of_ends_ne hLne (by rw [hLhead, hLlast]; exact ptLT_ne hmM)
  have hUf2 : 2 ≤ (buildChain s.reverse).reverse.length :=
    two_le_length_of_ends_ne hUne
      (by rw [hUhead, hUlast]; intro h; exact ptLT_ne hmM h.symm)
  have hlen : (hullOf s).length
      = ((buildChain s).reverse.length - 1) + ((buildChain s.reverse).reverse.length - 1) := by
    show ((buildChain s).reverse.dropLast ++ (buildChain s.reverse).reverse.dropLast).length = _
    rw [List.length_append, List.length_dropLast, List.length_dropLast]
  by_contra hlt
  push_neg at hlt
  have hL2 : (buildChain s).reverse.length = 2 := by omega
  have hU2 : (buildChain s.reverse).reverse.length = 2 := by omega
  have hLpair := eq_pair_of_length_two hL2
  have hUpair := eq_pair_of_length_two hU2
  rw [hLhead, hLlast] at hLpair
  rw [hUhead, hUlast] at hUpair
  obtain ⟨a, ha, b, hb, c, hc, hval⟩ := hnc
  apply hval
  have hzero : ∀ q ∈ s, cross s.headI s.getLastI q = 0 := by
    intro q hq
    have h1 := hLleft q hq
    rw [hLpair] at h1
    have h1' : 0 ≤ cross s.headI s.getLastI q := (List.chain'_cons.mp h1).1
    have h2 := hUleft q hq
    rw [hUpair] at h2
    have h2' : 0 ≤ cross s.getLastI s.headI q := (List.chain'_cons.mp h2).1
    have hsw := cross_sw01 s.getLastI s.headI q
    linarith
  exact cross_zero_of_on_line s.headI s.getLastI a b c hmM
    (hzero a ha) (hzero b hb) (hzero c hc)

end RendezVous

namespace RendezVous

/-- The assembled hull has no repeated vertices: the two chain interiors are
disjoint by the wedge argument, and the seam endpoints are dropped once. -/
theorem hull_nodup (s : List LatLng) (h3 : 3 ≤ s.length)
    (hsort : List.Pairwise ptLE s)
    (hnc : ∃ a ∈ s, ∃ b ∈ s, ∃ c ∈ s, cross a b c ≠ 0) :
    (hullOf s).Nodup := by
  obtain ⟨hne, hOK, hmM⟩ := hull_ctx s h3 hsort hnc
  obtain ⟨hLne, hLhead, hLlast, hLsub, hLstrict, hLconv, hLleft⟩ :=
    lower_facts s hne hsort hOK
  obtain ⟨hUne, hUhead, hUlast, hUmem, hUstrict, hUconv, hUleft⟩ :=
    upper_facts s hne hsort hOK
  have hLNodup : (buildChain s).reverse.Nodup := nodup_of_chain_ptLT hLstrict
  have hUNodup : (buildChain s.reverse).reverse.Nodup := nodup_of_chain_ptGT hUstrict
  show ((buildChain s).reverse.dropLast ++ (buildChain s.reverse).reverse.dropLast).Nodup
  rw [List.nodup_append]
  refine ⟨(List.dropLast_sublist _).nodup hLNodup,
    (List.dropLast_sublist _).nodup hUNodup, ?_⟩
  intro v hvL hvU
  have hvLf : v ∈ (buildChain s).reverse := List.dropLast_subset _ hvL
  have hvUf : v ∈ (buildChain s.reverse).reverse := List.dropLast_subset _ hvU
  by_cases hvm : v = s.headI
  · have hUdecomp : (buildChain s.reverse).reverse.dropLast ++ [s.headI]
        = (buildChain s.reverse).reverse := by
      rw [← hUlast]
      exact dropLast_append_getLastI hUne
    have hU2 := hUNodup
    rw [← hUdecomp, List.nodup_append] at hU2
    exact hU2.2.2 (hvm ▸ hvU) (by simp)
  · have hvMne : v ≠ s.getLastI := by
      intro hEq
      have hLdecomp : (buildChain s).reverse.dropLast ++ [s.getLastI]
          = (buildChain s).reverse := by
        rw [← hLlast]
        exact dropLast_append_getLastI hLne
      have hL2 := hLNodup
      rw [← hLdecomp, List.nodup_append] at hL2
      exact hL2.2.2 (hEq ▸ hvL) (by simp)
    have hvhL : v ≠ (buildChain s).reverse.headI := by rw [hLhead]; exact hvm
    obtain ⟨A, B, aLv, bLv, hdecL⟩ := interior_decomp _ v hvL hvhL
    have hvhU : v ≠ (buildChain s.reverse).reverse.headI := by
      rw [hUhead]; exact hvMne
    obtain ⟨A', B', aUv, bUv, hdecU⟩ := interior_decomp _ v hvU hvhU
    have hinfL2 : [v, bLv] <:+: (buildChain s).reverse :=
      ⟨A ++ [aLv], B, by rw [hdecL]; simp⟩
    have hinfL3 : [aLv, v, bLv] <:+: (buildChain s).reverse := ⟨A, B, hdecL.symm⟩
    have hinfU2 : [v, bUv] <:+: (buildChain s.reverse).reverse :=
      ⟨A' ++ [aUv], B', by rw [hdecU]; simp⟩
    have hbLvs : bLv ∈ s := hLsub.subset (by rw [hdecL]; simp)
    have haLvs : aLv ∈ s := hLsub.subset (by rw [hdecL]; simp)
    have hbUvs : bUv ∈ s := hUmem bUv (by rw [hdecU]; simp)
    have hstr2 : ptLT v bLv := chain'_rel_of_between hLstrict hinfL2
    have hstr3' := chain'_rel_of_between hUstrict hinfU2
    have hstr3 : ptLT bUv v := hstr3'
    have hturn : 0 < cross aLv v bLv := convexF_triple_of_infix hLconv hinfL3
    have h4 : 0 ≤ cross v bLv bUv := chain'_rel_of_between (hLleft bUv hbUvs) hinfL2
    have h5 : 0 ≤ cross v bUv bLv := chain'_rel_of_between (hUleft bLv hbLvs) hinfU2
    have h6 : 0 ≤ cross v bUv aLv := chain'_rel_of_between (hUleft aLv haLvs) hinfU2
    exact interior_wedge v aLv bLv bUv hstr2 hstr3 hturn h4 h5 h6

end RendezVous

namespace RendezVous

/-- Cyclic convexity of the assembled hull: within each chain by the chain
invariant, and across the two seams because a flat seam would force every
input point onto a line. -/
theorem hull_convexF (s : List LatLng) (h3 : 3 ≤ s.length)
    (hsort : List.Pairwise ptLE s)
    (hnc : ∃ a ∈ s, ∃ b ∈ s, ∃ c ∈ s, cross a b c ≠ 0) :
    ConvexF (hullOf s ++ (hullOf s).take 2) := by
  obtain ⟨hne, hOK, hmM⟩ := hull_ctx s h3 hsort hnc
  obtain ⟨hLne, hLhead, hLlast, hLsub, hLstrict, hLconv, hLleft⟩ :=
    lower_facts s hne hsort hOK
  obtain ⟨hUne, hUhead, hUlast, hUmem, hUstrict, hUconv, hUleft⟩ :=
    upper_facts s hne hsort hOK
  have hLf2 : 2 ≤ (buildChain s).reverse.length :=
    two_le_length_of_ends_ne hLne (by rw [hLhead, hLlast]; exact ptLT_ne hmM)
  have hUf2 : 2 ≤ (buildChain s.reverse).reverse.length :=
    two_le_length_of_ends_ne hUne
      (by rw [hUhead, hUlast]; intro h; exact ptLT_ne hmM h.symm)
  have hH3 := hull_min3 s h3 hsort hnc
  have hH2 : 2 ≤ (hullOf s).length := by omega
  -- decomposition of the lower chain around its last edge
  have hLdecomp : (buildChain s).reverse.dropLast ++ [s.getLastI] = (buildChain s).reverse := by
    rw [← hLlast]; exact dropLast_append_getLastI hLne
  have hLdrop_decomp : (buildChain s).reverse.dropLast.dropLast
      ++ [(buildChain s).reverse.dropLast.getLastI] = (buildChain s).reverse.dropLast :=
    dropLast_append_getLastI (dropLast_ne_nil hLf2)
  have lastPairL : [(buildChain s).reverse.dropLast.getLastI, s.getLastI]
      <:+: (buildChain s).reverse := by
    refine ⟨(buildChain s).reverse.dropLast.dropLast, [], ?_⟩
    rw [List.append_nil, show [(buildChain s).reverse.dropLast.getLastI, s.getLastI]
      = [(buildChain s).reverse.dropLast.getLastI] ++ [s.getLastI] from rfl,
      ← List.append_assoc, hLdrop_decomp, hLdecomp]
  -- decomposition of the upper chain around its first edge
  have hUtailne : (buildChain s.reverse).reverse.tail ≠ [] := by
    apply List.ne_nil_of_length_pos
    rw [List.length_tail]
    omega
  have hUcons : s.getLastI :: (buildChain s.reverse).reverse.tail
      = (buildChain s.reverse).reverse := by
    rw [← hUhead]; exact headI_cons_tail hUne
  have hUcons2 : (buildChain s.reverse).reverse.tail.headI
      :: (buildChain s.reverse).reverse.tail.tail = (buildChain s.reverse).reverse.tail :=
    headI_cons_tail hUtailne
  have firstPairU : [s.getLastI, (buildChain s.reverse).reverse.tail.headI]
      <:+: (buildChain s.reverse).reverse := by
    refine ⟨[], (buildChain s.reverse).reverse.tail.tail, ?_⟩
    rw [List.nil_append, show [s.getLastI, (buildChain s.reverse).reverse.tail.headI]
      = s.getLastI :: [(buildChain s.reverse).reverse.tail.headI] from rfl]
    rw [List.cons_append, List.singleton_append, hUcons2, hUcons]
  have u₁mem : (buildChain s.reverse).reverse.tail.headI ∈ s := by
    apply hUmem
    rw [← hUcons]
    exact List.mem_cons_of_mem _ (by rw [← hUcons2]; simp)
  -- the seam turn at the maximum
  have sM : 0 < cross (buildChain s).reverse.dropLast.getLastI s.getLastI
      (buildChain s.reverse).reverse.tail.headI := by
    have hge : 0 ≤ cross (buildChain s).reverse.dropLast.getLastI s.getLastI
        (buildChain s.reverse).reverse.tail.headI :=
      chain'_rel_of_between (hLleft _ u₁mem) lastPairL
    rcases lt_or_eq_of_le hge with h | h
    · exact h
    · exfalso
      have hu : ptLT (buildChain s).reverse.dropLast.getLastI s.getLastI :=
        chain'_rel_of_between hLstrict lastPairL
      have hw' := chain'_rel_of_between hUstrict firstPairU
      have hw : ptLT (buildChain s.reverse).reverse.tail.headI s.getLastI := hw'
      have hzeros : ∀ q ∈ s, cross (buildChain s).reverse.dropLast.getLastI s.getLastI q = 0 := by
        intro q hq
        exact collinear_of_pinched _ _ _ q hu hw h.symm
          (chain'_rel_of_between (hLleft q hq) lastPairL)
          (chain'_rel_of_between (hUleft q hq) firstPairU)
      obtain ⟨a, ha, b, hb, c, hc, hval⟩ := hnc
      exact hval (cross_zero_of_on_line _ _ a b c hu
        (hzeros a ha) (hzeros b hb) (hzeros c hc))
  -- decomposition of the upper chain around its last edge
  have hUdecomp : (buildChain s.reverse).reverse.dropLast ++ [s.headI]
      = (buildChain s.reverse).reverse := by
    rw [← hUlast]; exact dropLast_append_getLastI hUne
  have hUdrop_decomp : (buildChain s.reverse).reverse.dropLast.dropLast
      ++ [(buildChain s.reverse).reverse.dropLast.getLastI]
      = (buildChain s.reverse).reverse.dropLast :=
    dropLast_append_getLastI (dropLast_ne_nil hUf2)
  have lastPairU : [(buildChain s.reverse).reverse.dropLast.getLastI, s.headI]
      <:+: (buildChain s.reverse).reverse := by
    refine ⟨(buildChain s.reverse).reverse.dropLast.dropLast, [], ?_⟩
    rw [List.append_nil, show [(buildChain s.reverse).reverse.dropLast.getLastI, s.headI]
      = [(buildChain s.reverse).reverse.dropLast.getLastI] ++ [s.headI] from rfl,
      ← List.append_assoc, hUdrop_decomp, hUdecomp]
  -- the second hull vertex and the first edge of the lower chain
  have hLtailne : (buildChain s).reverse.tail ≠ [] := by
    apply List.ne_nil_of_length_pos
    rw [List.length_tail]
    omega
  have hLcons : s.headI :: (buildChain s).reverse.tail = (buildChain s).reverse := by
    rw [← hLhead]; exact headI_cons_tail hLne
  have hLcons2 : (buildChain s).reverse.tail.headI :: (buildChain s).reverse.tail.tail
      = (buildChain s).reverse.tail := headI_cons_tail hLtailne
  have firstPairL : [s.headI, (buildChain s).reverse.tail.headI]
      <:+: (buildChain s).reverse := by
    refine ⟨[], (buildChain s).reverse.tail.tail, ?_⟩
    rw [List.nil_append, show [s.headI, (buildChain s).reverse.tail.headI]
      = s.headI :: [(buildChain s).reverse.tail.headI] from rfl]
    rw [List.cons_append, List.singleton_append, hLcons2, hLcons]
  -- the second hull vertex equals the second lower-chain vertex
  have hh₁ : (hullOf s).tail.headI = (buildChain s).reverse.tail.headI := by
    show ((buildChain s).reverse.dropLast ++ (buildChain s.reverse).reverse.dropLast).tail.headI = _
    rw [tail_append_ne (dropLast_ne_nil hLf2)]
    by_cases hL3 : 3 ≤ (buildChain s).reverse.length
    · have hdt : (buildChain s).reverse.dropLast.tail ≠ [] := by
        apply List.ne_nil_of_length_pos
        rw [List.length_tail, List.length_dropLast]
        omega
      rw [headI_append_ne hdt, tail_headI_dropLast hL3]
    · have hL2 : (buildChain s).reverse.length = 2 := by omega
      have hLpair := eq_pair_of_length_two hL2
      have hdropL : (buildChain s).reverse.dropLast = [(buildChain s).reverse.headI] := by
        rw [hLpair]; rfl
      have htailL : (buildChain s).reverse.tail.headI = (buildChain s).reverse.getLastI := by
        rw [hLpair]; rfl
      rw [hdropL, htailL]
      show (buildChain s.reverse).reverse.dropLast.headI = _
      rw [headI_dropLast hUf2, hUhead, hLlast]
  have hp1mem : (hullOf s).tail.headI ∈ s := by
    rw [hh₁]
    apply hLsub.subset
    rw [← hLcons]
    exact List.mem_cons_of_mem _ (by rw [← hLcons2]; simp)
  -- the seam turn at the minimum, via the negation symmetry
  have sm : 0 < cross (buildChain s.reverse).reverse.dropLast.getLastI s.headI
      (hullOf s).tail.headI := by
    have hge : 0 ≤ cross (buildChain s.reverse).reverse.dropLast.getLastI s.headI
        (hullOf s).tail.headI :=
      chain'_rel_of_between (hUleft _ hp1mem) lastPairU
    rcases lt_or_eq_of_le hge with h | h
    · exact h
    · exfalso
      have hmcU' := chain'_rel_of_between hUstrict lastPairU
      have hmcU : ptLT s.headI (buildChain s.reverse).reverse.dropLast.getLastI := hmcU'
      have hmh1 : ptLT s.headI (hullOf s).tail.headI := by
        rw [hh₁]
        exact chain'_rel_of_between hLstrict firstPairL
      have huN : ptLT (negPt (buildChain s.reverse).reverse.dropLast.getLastI) (negPt s.headI) :=
        (ptLT_negPt _ _).mpr hmcU
      have hwN : ptLT (negPt ((hullOf s).tail.headI)) (negPt s.headI) :=
        (ptLT_negPt _ _).mpr hmh1
      have hzeroN : cross (negPt (buildChain s.reverse).reverse.dropLast.getLastI)
          (negPt s.headI) (negPt ((hullOf s).tail.headI)) = 0 := by
        rw [cross_negPt]; exact h.symm
      have hzeros : ∀ q ∈ s,
          cross (buildChain s.reverse).reverse.dropLast.getLastI s.headI q = 0 := by
        intro q hq
        have h1 : 0 ≤ cross (buildChain s.reverse).reverse.dropLast.getLastI s.headI q :=
          chain'_rel_of_between (hUleft q hq) lastPairU
        have h2 : 0 ≤ cross s.headI ((hullOf s).tail.headI) q := by
          rw [hh₁]
          exact chain'_rel_of_between (hLleft q hq) firstPairL
        have hres := collinear_of_pinched _ _ _ (negPt q) huN hwN hzeroN
          (by rwa [cross_negPt]) (by rwa [cross_negPt])
        rwa [cross_negPt] at hres
      obtain ⟨a, ha, b, hb, c, hc, hval⟩ := hnc
      apply hval
      have hfin := cross_zero_of_on_line
        (negPt (buildChain s.reverse).reverse.dropLast.getLastI) (negPt s.headI)
        (negPt a) (negPt b) (negPt c) huN
        (by rw [cross_negPt]; exact hzeros a ha)
        (by rw [cross_negPt]; exact hzeros b hb)
        (by rw [cross_negPt]; exact hzeros c hc)
      rwa [cross_negPt] at hfin
  -- glue the lower chain with one upper step
  have CLu : ConvexF ((buildChain s).reverse ++ [(buildChain s.reverse).reverse.tail.headI]) := by
    have hA : (buildChain s).reverse.dropLast.dropLast
        ++ [(buildChain s).reverse.dropLast.getLastI, s.getLastI] = (buildChain s).reverse := by
      rw [show [(buildChain s).reverse.dropLast.getLastI, s.getLastI]
        = [(buildChain s).reverse.dropLast.getLastI] ++ [s.getLastI] from rfl,
        ← List.append_assoc, hLdrop_decomp, hLdecomp]
    have hCLf' : ConvexF ((buildChain s).reverse.dropLast.dropLast
        ++ [(buildChain s).reverse.dropLast.getLastI, s.getLastI]) := by
      rw [hA]; exact hLconv
    have hmid : ConvexF [(buildChain s).reverse.dropLast.getLastI, s.getLastI,
        (buildChain s.reverse).reverse.tail.headI] := ⟨sM, trivial⟩
    have hres := convexF_glue _ _ _ _ hCLf' hmid
    have hgoal : (buildChain s).reverse ++ [(buildChain s.reverse).reverse.tail.headI]
        = (buildChain s).reverse.dropLast.dropLast
          ++ (buildChain s).reverse.dropLast.getLastI :: s.getLastI
            :: [(buildChain s.reverse).reverse.tail.headI] := by
      conv_lhs => rw [← hA]
      rw [List.append_assoc]
      rfl
    rw [hgoal]
    exact hres
  -- glue the upper chain with the closing step
  have CUh : ConvexF ((buildChain s.reverse).reverse ++ [(hullOf s).tail.headI]) := by
    have hA : (buildChain s.reverse).reverse.dropLast.dropLast
        ++ [(buildChain s.reverse).reverse.dropLast.getLastI, s.headI]
        = (buildChain s.reverse).reverse := by
      rw [show [(buildChain s.reverse).reverse.dropLast.getLastI, s.headI]
        = [(buildChain s.reverse).reverse.dropLast.getLastI] ++ [s.headI] from rfl,
        ← List.append_assoc, hUdrop_decomp, hUdecomp]
    have hCUf' : ConvexF ((buildChain s.reverse).reverse.dropLast.dropLast
        ++ [(buildChain s.reverse).reverse.dropLast.getLastI, s.headI]) := by
      rw [hA]; exact hUconv
    have hmid : ConvexF [(buildChain s.reverse).reverse.dropLast.getLastI, s.headI,
        (hullOf s).tail.headI] := ⟨sm, trivial⟩
    have hres := convexF_glue _ _ _ _ hCUf' hmid
    have hgoal : (buildChain s.reverse).reverse ++ [(hullOf s).tail.headI]
        = (buildChain s.reverse).reverse.dropLast.dropLast
          ++ (buildChain s.reverse).reverse.dropLast.getLastI :: s.headI
            :: [(hullOf s).tail.headI] := by
      conv_lhs => rw [← hA]
      rw [List.append_assoc]
      rfl
    rw [hgoal]
    exact hres
  -- final assembly
  have htake2 : (hullOf s).take 2 = [s.headI, (hullOf s).tail.headI] := by
    rw [take_two_eq hH2]
    congr 1
    show ((buildChain s).reverse.dropLast ++ (buildChain s.reverse).reverse.dropLast).headI = _
    rw [headI_append_ne (dropLast_ne_nil hLf2), headI_dropLast hLf2, hLhead]
  rw [htake2]
  have hUncons : (buildChain s.reverse).reverse ++ [(hullOf s).tail.headI]
      = s.getLastI :: (buildChain s.reverse).reverse.tail.headI
        :: ((buildChain s.reverse).reverse.tail.tail ++ [(hullOf s).tail.headI]) := by
    rw [show s.getLastI :: (buildChain s.reverse).reverse.tail.headI
        :: ((buildChain s.reverse).reverse.tail.tail ++ [(hullOf s).tail.headI])
      = (s.getLastI :: (buildChain s.reverse).reverse.tail.headI
        :: (buildChain s.reverse).reverse.tail.tail) ++ [(hullOf s).tail.headI] from rfl]
    rw [show s.getLastI :: (buildChain s.reverse).reverse.tail.headI
        :: (buildChain s.reverse).reverse.tail.tail
      = s.getLastI :: ((buildChain s.reverse).reverse.tail.headI
        :: (buildChain s.reverse).reverse.tail.tail) from rfl, hUcons2, hUcons]
  have hLeft : ConvexF ((buildChain s).reverse.dropLast
      ++ [s.getLastI, (buildChain s.reverse).reverse.tail.headI]) := by
    have : (buildChain s).reverse.dropLast
        ++ [s.getLastI, (buildChain s.reverse).reverse.tail.headI]
        = (buildChain s).reverse ++ [(buildChain s.reverse).reverse.tail.headI] := by
      rw [show [s.getLastI, (buildChain s.reverse).reverse.tail.headI]
        = [s.getLastI] ++ [(buildChain s.reverse).reverse.tail.headI] from rfl,
        ← List.append_assoc, hLdecomp]
    rw [this]
    exact CLu
  have hRight : ConvexF (s.getLastI :: (buildChain s.reverse).reverse.tail.headI
      :: ((buildChain s.reverse).reverse.tail.tail ++ [(hullOf s).tail.headI])) := by
    rw [← hUncons]
    exact CUh
  have hres := convexF_glue ((buildChain s).reverse.dropLast) s.getLastI
    ((buildChain s.reverse).reverse.tail.headI)
    ((buildChain s.reverse).reverse.tail.tail ++ [(hullOf s).tail.headI]) hLeft hRight
  have hfin : hullOf s ++ [s.headI, (hullOf s).tail.headI]
      = (buildChain s).reverse.dropLast ++ s.getLastI
        :: (buildChain s.reverse).reverse.tail.headI
        :: ((buildChain s.reverse).reverse.tail.tail ++ [(hullOf s).tail.headI]) := by
    show ((buildChain s).reverse.dropLast ++ (buildChain s.reverse).reverse.dropLast)
        ++ [s.headI, (hullOf s).tail.headI] = _
    rw [List.append_assoc]
    congr 1
    rw [show (s.getLastI :: (buildChain s.reverse).reverse.tail.headI
        :: ((buildChain s.reverse).reverse.tail.tail ++ [(hullOf s).tail.headI]))
      = ((buildChain s.reverse).reverse ++ [(hullOf s).tail.headI]) from hUncons.symm]
    rw [show [s.headI, (hullOf s).tail.headI]
      = [s.headI] ++ [(hullOf s).tail.headI] from rfl, ← List.append_assoc, hUdecomp]
  rw [hfin]
  exact hres

end RendezVous

namespace RendezVous

/-- Every input point is on the left of every directed hull edge, including
the closing edge back to the first vertex. -/
theorem hull_contain (s : List LatLng) (h3 : 3 ≤ s.length)
    (hsort : List.Pairwise ptLE s)
    (hnc : ∃ a ∈ s, ∃ b ∈ s, ∃ c ∈ s, cross a b c ≠ 0) :
    ∀ q ∈ s, List.Chain' (fun x y => 0 ≤ cross x y q)
      (hullOf s ++ (hullOf s).take 1) := by
  obtain ⟨hne, hOK, hmM⟩ := hull_ctx s h3 hsort hnc
  obtain ⟨hLne, hLhead, hLlast, hLsub, hLstrict, hLconv, hLleft⟩ :=
    lower_facts s hne hsort hOK
  obtain ⟨hUne, hUhead, hUlast, hUmem, hUstrict, hUconv, hUleft⟩ :=
    upper_facts s hne hsort hOK
  have hLf2 : 2 ≤ (buildChain s).reverse.length :=
    two_le_length_of_ends_ne hLne (by rw [hLhead, hLlast]; exact ptLT_ne hmM)
  have hH3 := hull_min3 s h3 hsort hnc
  have hHne : hullOf s ≠ [] := by
    apply List.ne_nil_of_length_pos; omega
  have hLdecomp : (buildChain s).reverse.dropLast ++ [s.getLastI]
      = (buildChain s).reverse := by
    rw [← hLlast]; exact dropLast_append_getLastI hLne
  have hLdrop_decomp := dropLast_append_getLastI (dropLast_ne_nil hLf2)
  have lastPairL : [(buildChain s).reverse.dropLast.getLastI, s.getLastI]
      <:+: (buildChain s).reverse := by
    refine ⟨(buildChain s).reverse.dropLast.dropLast, [], ?_⟩
    rw [List.append_nil, show [(buildChain s).reverse.dropLast.getLastI, s.getLastI]
      = [(buildChain s).reverse.dropLast.getLastI] ++ [s.getLastI] from rfl,
      ← List.append_assoc, hLdrop_decomp, hLdecomp]
  intro q hq
  rw [take_one_eq hHne]
  have hHhead : (hullOf s).headI = s.headI := by
    show ((buildChain s).reverse.dropLast ++ (buildChain s.reverse).reverse.dropLast).headI = _
    rw [headI_append_ne (dropLast_ne_nil hLf2), headI_dropLast hLf2, hLhead]
  rw [hHhead]
  have hUdecomp : (buildChain s.reverse).reverse.dropLast ++ [s.headI]
      = (buildChain s.reverse).reverse := by
    rw [← hUlast]; exact dropLast_append_getLastI hUne
  have hform : hullOf s ++ [s.headI]
      = (buildChain s).reverse.dropLast ++ (buildChain s.reverse).reverse := by
    show ((buildChain s).reverse.dropLast ++ (buildChain s.reverse).reverse.dropLast)
      ++ [s.headI] = _
    rw [List.append_assoc, hUdecomp]
  rw [hform]
  apply List.chain'_append.mpr
  refine ⟨(hLleft q hq).init, hUleft q hq, ?_⟩
  intro x hx y hy
  rw [getLast?_eq_some_getLastI (dropLast_ne_nil hLf2), Option.mem_some_iff] at hx
  rw [head?_eq_some_headI hUne, Option.mem_some_iff] at hy
  subst hx
  subst hy
  rw [hUhead]
  exact chain'_rel_of_between (hLleft q hq) lastPairL

end RendezVous

namespace RendezVous

/-- C8: for every input of 3 or more points that are not all collinear,
`convexHull` returns a polygon with at least 3 and at most `points.length`
vertices, with no repeated vertex; every cyclically consecutive triple of
hull vertices makes a strictly counter-clockwise turn (so collinear points
are excluded from the boundary rather than kept as redundant vertices); and
every input point lies weakly to the left of every directed hull edge,
including the closing edge, i.e. in the polygon's interior or boundary. -/
theorem convexHull_graham_correct (points : List LatLng)
    (h3 : 3 ≤ points.length)
    (hnc : ∃ a ∈ points, ∃ b ∈ points, ∃ c ∈ points, cross a b c ≠ 0) :
    3 ≤ (convexHull points).length ∧
    (convexHull points).length ≤ points.length ∧
    (convexHull points).Nodup ∧
    ConvexF (convexHull points ++ (convexHull points).take 2) ∧
    ∀ q ∈ points, List.Chain' (fun x y => 0 ≤ cross x y q)
      (convexHull points ++ (convexHull points).take 1) := by
  have hperm : List.Perm (sortPts points) points := List.perm_insertionSort ptLE points
  have hs3 : 3 ≤ (sortPts points).length := by rw [hperm.length_eq]; exact h3
  have hsort : List.Pairwise ptLE (sortPts points) := List.sorted_insertionSort ptLE points
  have hnc' : ∃ a ∈ sortPts points, ∃ b ∈ sortPts points, ∃ c ∈ sortPts points,
      cross a b c ≠ 0 := by
    obtain ⟨a, ha, b, hb, c, hc, hv⟩ := hnc
    exact ⟨a, hperm.mem_iff.mpr ha, b, hperm.mem_iff.mpr hb, c,
      hperm.mem_iff.mpr hc, hv⟩
  rw [convexHull_eq_hullOf points h3]
  refine ⟨hull_min3 _ hs3 hsort hnc', ?_, hull_nodup _ hs3 hsort hnc',
    hull_convexF _ hs3 hsort hnc', ?_⟩
  · have hnd := hull_nodup _ hs3 hsort hnc'
    have hsub : hullOf (sortPts points) ⊆ points := fun v hv =>
      hperm.mem_iff.mp (hullOf_mem _ v hv)
    exact (List.subperm_of_subset hnd hsub).length_le
  · intro q hq
    exact hull_contain _ hs3 hsort hnc' q (hperm.mem_iff.mpr hq)

/-- Witness: the three corners of a right triangle satisfy the hypotheses and
the conclusion of the Graham-scan correctness theorem. -/
theorem convexHull_graham_correct_witness :
    (3 ≤ ([⟨0, 0⟩, ⟨0, 1⟩, ⟨1, 0⟩] : List LatLng).length ∧
     ∃ a ∈ ([⟨0, 0⟩, ⟨0, 1⟩, ⟨1, 0⟩] : List LatLng),
       ∃ b ∈ ([⟨0, 0⟩, ⟨0, 1⟩, ⟨1, 0⟩] : List LatLng),
         ∃ c ∈ ([⟨0, 0⟩, ⟨0, 1⟩, ⟨1, 0⟩] : List LatLng), cross a b c ≠ 0) ∧
    (3 ≤ (convexHull [⟨0, 0⟩, ⟨0, 1⟩, ⟨1, 0⟩]).length ∧
     (convexHull [⟨0, 0⟩, ⟨0, 1⟩, ⟨1, 0⟩]).length
       ≤ ([⟨0, 0⟩, ⟨0, 1⟩, ⟨1, 0⟩] : List LatLng).length ∧
     (convexHull [⟨0, 0⟩, ⟨0, 1⟩, ⟨1, 0⟩]).Nodup ∧
     ConvexF (convexHull [⟨0, 0⟩, ⟨0, 1⟩, ⟨1, 0⟩]
       ++ (convexHull [⟨0, 0⟩, ⟨0, 1⟩, ⟨1, 0⟩]).take 2) ∧
     ∀ q ∈ ([⟨0, 0⟩, ⟨0, 1⟩, ⟨1, 0⟩] : List LatLng),
       List.Chain' (fun x y => 0 ≤ cross x y q)
         (convexHull [⟨0, 0⟩, ⟨0, 1⟩, ⟨1, 0⟩]
           ++ (convexHull [⟨0, 0⟩, ⟨0, 1⟩, ⟨1, 0⟩]).take 1)) :=
  ⟨⟨by simp, ⟨0, 0⟩, by simp, ⟨0, 1⟩, by simp, ⟨1, 0⟩, by simp,
      by norm_num [cross]⟩,
   convexHull_graham_correct [⟨0, 0⟩, ⟨0, 1⟩, ⟨1, 0⟩] (by simp)
     ⟨⟨0, 0⟩, by simp, ⟨0, 1⟩, by simp, ⟨1, 0⟩, by simp, by norm_num [cross]⟩⟩

end RendezVous
